import Mathlib

/-!
# Verification of the WavesGUI storage service

A shallow embedding of `src/modules/utils/services/Storage.js` (the web
branch of the backend selection) together with models of its external
collaborators (`JSON.parse`/`JSON.stringify`, `ts-utils`, and the
`migration`/`utils.chainCall` services, which are part of the application
but not of this excerpt and are therefore modelled from the spec).

JSON numbers are modelled as integers (the values this service stores use
only integral numerals); the JSON reader model accepts no surrounding
whitespace, which the serializer never produces.
-/

namespace WavesGUI

/-- JSON values, as produced by `JSON.parse` and consumed by
`JSON.stringify`.  Strings are kept as character lists to ease induction;
object fields keep their insertion order, as JavaScript objects do. -/
inductive Json where
  | null : Json
  | bool (b : Bool) : Json
  | num (n : Int) : Json
  | str (s : List Char) : Json
  | arr (elems : List Json) : Json
  | obj (fields : List (List Char × Json)) : Json

mutual

/-- Structural size of a JSON value (used for induction and parser fuel). -/
def jsize : Json → Nat
  | .arr es => 2 + jsizeL es
  | .obj fs => 2 + jsizeF fs
  | _ => 1

/-- Structural size of a list of JSON values. -/
def jsizeL : List Json → Nat
  | [] => 0
  | v :: vs => 1 + jsize v + jsizeL vs

/-- Structural size of a list of JSON object fields. -/
def jsizeF : List (List Char × Json) → Nat
  | [] => 0
  | (_, v) :: fs => 1 + jsize v + jsizeF fs

end

mutual

/-- Boolean structural equality of JSON values. -/
def beqJson : Json → Json → Bool
  | .null, .null => true
  | .bool x, .bool y => x == y
  | .num x, .num y => x == y
  | .str s, .str t => s == t
  | .arr es, .arr es2 => beqJsonL es es2
  | .obj fs, .obj fs2 => beqJsonF fs fs2
  | _, _ => false

/-- Boolean equality of lists of JSON values. -/
def beqJsonL : List Json → List Json → Bool
  | [], [] => true
  | v :: vs, w :: ws => beqJson v w && beqJsonL vs ws
  | _, _ => false

/-- Boolean equality of lists of JSON object fields. -/
def beqJsonF : List (List Char × Json) → List (List Char × Json) → Bool
  | [], [] => true
  | (k, v) :: fs, (k2, v2) :: fs2 => k == k2 && beqJson v v2 && beqJsonF fs fs2
  | _, _ => false

end

theorem jsize_pos (a : Json) : 0 < jsize a := by
  cases a <;> simp [jsize]

theorem beqJson_iff_aux (n : Nat) :
    (∀ a b, jsize a ≤ n → (beqJson a b = true ↔ a = b)) ∧
    (∀ l l2, jsizeL l ≤ n → (beqJsonL l l2 = true ↔ l = l2)) ∧
    (∀ f f2, jsizeF f ≤ n → (beqJsonF f f2 = true ↔ f = f2)) := by
  induction n using Nat.strong_induction_on with
  | _ n ih =>
    refine ⟨?_, ?_, ?_⟩
    · intro a b hle
      cases a <;> cases b <;> try (simp [beqJson]; done)
      case arr.arr es es2 =>
        have h1 : jsizeL es < n := by simp [jsize] at hle; omega
        simp [beqJson]
        exact (ih _ h1).2.1 es es2 le_rfl
      case obj.obj fs fs2 =>
        have h1 : jsizeF fs < n := by simp [jsize] at hle; omega
        simp [beqJson]
        exact (ih _ h1).2.2 fs fs2 le_rfl
    · intro l l2 hle
      cases l <;> cases l2 <;> try (simp [beqJsonL]; done)
      case cons.cons v vs w ws =>
        simp [jsizeL] at hle
        have hv : jsize v < n := by omega
        have hvs : jsizeL vs < n := by omega
        simp [beqJsonL]
        rw [(ih _ hv).1 v w le_rfl, (ih _ hvs).2.1 vs ws le_rfl]
    · intro f f2 hle
      cases f <;> cases f2 <;> try (simp [beqJsonF]; done)
      case cons.cons kv fs kv2 fs2 =>
        obtain ⟨k, v⟩ := kv
        obtain ⟨k2, v2⟩ := kv2
        simp [jsizeF] at hle
        have hv : jsize v < n := by omega
        have hfs : jsizeF fs < n := by omega
        simp [beqJsonF]
        rw [(ih _ hv).1 v v2 le_rfl, (ih _ hfs).2.2 fs fs2 le_rfl]

theorem beqJson_iff (a b : Json) : beqJson a b = true ↔ a = b :=
  (beqJson_iff_aux (jsize a)).1 a b le_rfl

instance : DecidableEq Json := fun a b => decidable_of_iff _ (beqJson_iff a b)

/-- The opening-brace character, written by code point. -/
def lbrace : Char := Char.ofNat 123

/-- The closing-brace character, written by code point. -/
def rbrace : Char := Char.ofNat 125

/-- The decimal digit character for a digit value below ten. -/
def digitChar (d : Nat) : Char :=
  match d with
  | 0 => '0'
  | 1 => '1'
  | 2 => '2'
  | 3 => '3'
  | 4 => '4'
  | 5 => '5'
  | 6 => '6'
  | 7 => '7'
  | 8 => '8'
  | _ => '9'

/-- Whether a character is a decimal digit. -/
def digitB (c : Char) : Bool := 48 ≤ c.toNat && c.toNat ≤ 57

/-- The numeric value of a digit character. -/
def digitVal (c : Char) : Nat := c.toNat - 48

/-- Decimal digits of a natural number, most significant first, driven by
explicit fuel so that the definition is structurally recursive. -/
def natChars : Nat → Nat → List Char
  | 0, _ => []
  | f + 1, n => if n < 10 then [digitChar n] else natChars f (n / 10) ++ [digitChar (n % 10)]

/-- Decimal digits of a natural number, most significant first. -/
def natToChars (n : Nat) : List Char := natChars (n + 1) n

/-- Decimal rendering of an integer, as `JSON.stringify` and `String()`
produce for integral numbers. -/
def printInt : Int → List Char
  | .ofNat m => natToChars m
  | .negSucc m => '-' :: natToChars (m + 1)

/-- JSON string-content escaping: quotation marks and backslashes get a
backslash; other characters pass through. -/
def escapeChars : List Char → List Char
  | [] => []
  | c :: cs =>
    if c = '"' ∨ c = '\\' then '\\' :: c :: escapeChars cs else c :: escapeChars cs

/-- A JSON string literal: quoted, escaped content. -/
def printStr (s : List Char) : List Char := '"' :: (escapeChars s ++ ['"'])

mutual

/-- Model of `JSON.stringify` on JSON values. -/
def printJson : Json → List Char
  | .null => 'n' :: ['u', 'l', 'l']
  | .bool b => if b then 't' :: ['r', 'u', 'e'] else 'f' :: ['a', 'l', 's', 'e']
  | .num n => printInt n
  | .str s => printStr s
  | .arr es => '[' :: (printElems es ++ [']'])
  | .obj fs => lbrace :: (printFields fs ++ [rbrace])

/-- Comma-separated rendering of array elements. -/
def printElems : List Json → List Char
  | [] => []
  | [e] => printJson e
  | e :: es => printJson e ++ ',' :: printElems es

/-- Comma-separated rendering of object fields. -/
def printFields : List (List Char × Json) → List Char
  | [] => []
  | [(k, v)] => printStr k ++ ':' :: printJson v
  | (k, v) :: fs => printStr k ++ ':' :: printJson v ++ ',' :: printFields fs

end

/-- Reads the body of a JSON string literal after its opening quote:
returns the unescaped content and the input after the closing quote. -/
def parseStr : List Char → Option (List Char × List Char)
  | [] => none
  | c :: cs =>
    if c = '"' then some ([], cs)
    else if c = '\\' then
      match cs with
      | [] => none
      | d :: cs2 =>
        match parseStr cs2 with
        | some (s, r) => some (d :: s, r)
        | none => none
    else
      match parseStr cs with
      | some (s, r) => some (c :: s, r)
      | none => none

/-- Splits off the maximal leading run of decimal digits. -/
def takeDigits : List Char → List Char × List Char
  | [] => ([], [])
  | c :: cs =>
    if digitB c then (c :: (takeDigits cs).1, (takeDigits cs).2)
    else ([], c :: cs)

/-- Value of a digit string, most significant digit first. -/
def digitsVal (ds : List Char) : Nat := ds.foldl (fun a c => 10 * a + digitVal c) 0

/-- Reads a nonempty run of digits as a natural number. -/
def parseNat (cs : List Char) : Option (Nat × List Char) :=
  match takeDigits cs with
  | ([], _) => none
  | (d :: ds, r) => some (digitsVal (d :: ds), r)

mutual

/-- Model of `JSON.parse` on one value (fuelled recursive descent).
Returns the value and the unconsumed input. -/
def parseVal : Nat → List Char → Option (Json × List Char)
  | 0, _ => none
  | f + 1, cs =>
    match cs with
    | [] => none
    | c :: rest =>
      if c = 'n' then
        match rest with
        | 'u' :: 'l' :: 'l' :: r => some (.null, r)
        | _ => none
      else if c = 't' then
        match rest with
        | 'r' :: 'u' :: 'e' :: r => some (.bool true, r)
        | _ => none
      else if c = 'f' then
        match rest with
        | 'a' :: 'l' :: 's' :: 'e' :: r => some (.bool false, r)
        | _ => none
      else if c = '"' then
        match parseStr rest with
        | some (s, r) => some (.str s, r)
        | none => none
      else if c = '[' then
        match parseElems f rest with
        | some (es, r) => some (.arr es, r)
        | none => none
      else if c = lbrace then
        match parseFields f rest with
        | some (fs, r) => some (.obj fs, r)
        | none => none
      else if c = '-' then
        match parseNat rest with
        | some (m, r) => some (.num (-(m : Int)), r)
        | none => none
      else
        match parseNat cs with
        | some (m, r) => some (.num (m : Int), r)
        | none => none

/-- Elements of an array body, up to and including the closing bracket. -/
def parseElems : Nat → List Char → Option (List Json × List Char)
  | 0, _ => none
  | f + 1, cs =>
    if cs.head? = some ']' then some ([], cs.tail)
    else
      match parseVal f cs with
      | some (v, r) =>
        if r.head? = some ',' then
          match parseElems f r.tail with
          | some (es, r3) => some (v :: es, r3)
          | none => none
        else if r.head? = some ']' then some ([v], r.tail)
        else none
      | none => none

/-- Fields of an object body, up to and including the closing brace. -/
def parseFields : Nat → List Char → Option (List (List Char × Json) × List Char)
  | 0, _ => none
  | f + 1, cs =>
    if cs.head? = some rbrace then some ([], cs.tail)
    else
      match cs with
      | [] => none
      | c :: rest =>
        if c = '"' then
          match parseStr rest with
          | some (k, r) =>
            if r.head? = some ':' then
              match parseVal f r.tail with
              | some (v, r3) =>
                if r3.head? = some ',' then
                  match parseFields f r3.tail with
                  | some (fs, r5) => some ((k, v) :: fs, r5)
                  | none => none
                else if r3.head? = some rbrace then some ([(k, v)], r3.tail)
                else none
              | none => none
            else none
          | none => none
        else none

end

/-- Model of `JSON.parse` on a whole string: the parse succeeds only if it
consumes the entire input. -/
def jsonParse (s : String) : Option Json :=
  match parseVal (2 * s.data.length + 2) s.data with
  | some (v, []) => some v
  | _ => none

/-- Whether the input starts with a decimal digit. -/
def headDigit : List Char → Bool
  | [] => false
  | c :: _ => digitB c

theorem digitB_digitChar {d : Nat} (h : d < 10) : digitB (digitChar d) = true := by
  interval_cases d <;> decide

theorem digitVal_digitChar {d : Nat} (h : d < 10) : digitVal (digitChar d) = d := by
  interval_cases d <;> decide

theorem natChars_fuel : ∀ (n f g : Nat), n < f → n < g →
    natChars f n = natChars g n := by
  intro n
  induction n using Nat.strong_induction_on with
  | _ n ih =>
    intro f g hf hg
    match f, g with
    | f + 1, g + 1 =>
      simp only [natChars]
      by_cases h10 : n < 10
      · simp [h10]
      · have hdiv : n / 10 < n := Nat.div_lt_self (by omega) (by omega)
        simp only [h10, if_false]
        rw [ih (n / 10) hdiv f (n / 10 + 1) (by omega) (by omega),
          ih (n / 10) hdiv g (n / 10 + 1) (by omega) (by omega)]

theorem natToChars_eq (n : Nat) :
    natToChars n = if n < 10 then [digitChar n]
      else natToChars (n / 10) ++ [digitChar (n % 10)] := by
  by_cases h10 : n < 10
  · simp [natToChars, natChars, h10]
  · have hdiv : n / 10 < n := Nat.div_lt_self (by omega) (by omega)
    have h1 : natToChars n = natChars n (n / 10) ++ [digitChar (n % 10)] := by
      simp [natToChars, natChars, h10]
    rw [h1, if_neg h10, natChars_fuel (n / 10) n (n / 10 + 1) hdiv (by omega)]
    rfl

theorem natToChars_ne_nil (n : Nat) : natToChars n ≠ [] := by
  rw [natToChars_eq]
  by_cases h10 : n < 10 <;> simp [h10]

theorem natToChars_digits (n : Nat) : ∀ c ∈ natToChars n, digitB c = true := by
  induction n using Nat.strong_induction_on with
  | _ n ih =>
    rw [natToChars_eq]
    by_cases h10 : n < 10
    · simp [h10, digitB_digitChar h10]
    · have hdiv : n / 10 < n := Nat.div_lt_self (by omega) (by omega)
      simp only [h10, if_false]
      intro c hc
      rcases List.mem_append.mp hc with h | h
      · exact ih _ hdiv c h
      · rcases List.mem_singleton.mp h with rfl
        exact digitB_digitChar (Nat.mod_lt _ (by omega))

theorem digitsVal_append_digit (ds : List Char) (c : Char) :
    digitsVal (ds ++ [c]) = 10 * digitsVal ds + digitVal c := by
  simp [digitsVal, List.foldl_append]

theorem digitsVal_natToChars (n : Nat) : digitsVal (natToChars n) = n := by
  induction n using Nat.strong_induction_on with
  | _ n ih =>
    rw [natToChars_eq]
    by_cases h10 : n < 10
    · simp [h10, digitsVal, digitVal_digitChar h10]
    · have hdiv : n / 10 < n := Nat.div_lt_self (by omega) (by omega)
      simp only [h10, if_false]
      rw [digitsVal_append_digit, ih _ hdiv, digitVal_digitChar (Nat.mod_lt _ (by omega))]
      omega

theorem takeDigits_append {ds rest : List Char} (hds : ∀ c ∈ ds, digitB c = true)
    (hrest : headDigit rest = false) : takeDigits (ds ++ rest) = (ds, rest) := by
  induction ds with
  | nil =>
    simp only [List.nil_append]
    cases rest with
    | nil => rfl
    | cons c cs =>
      simp only [headDigit] at hrest
      simp [takeDigits, hrest]
  | cons c cs ih =>
    have hc : digitB c = true := hds c (by simp)
    simp only [List.cons_append, takeDigits, hc, if_true, List.append_eq]
    rw [ih (fun d hd => hds d (by simp [hd]))]

theorem parseNat_natToChars (n : Nat) {rest : List Char} (hrest : headDigit rest = false) :
    parseNat (natToChars n ++ rest) = some (n, rest) := by
  unfold parseNat
  rw [takeDigits_append (natToChars_digits n) hrest]
  have hne := natToChars_ne_nil n
  cases h : natToChars n with
  | nil => exact absurd h hne
  | cons d ds =>
    have := digitsVal_natToChars n
    rw [h] at this
    simp [this]

theorem parseStr_quote (cs : List Char) : parseStr ('"' :: cs) = some ([], cs) := by
  cases cs <;> simp [parseStr]

theorem parseStr_backslash (d : Char) (cs : List Char) :
    parseStr ('\\' :: d :: cs) =
      match parseStr cs with
      | some (s, r) => some (d :: s, r)
      | none => none := by
  have h1 : ¬(('\\' : Char) = '"') := by decide
  simp [parseStr, if_neg h1]

theorem parseStr_other {c : Char} (h1 : c ≠ '"') (h2 : c ≠ '\\') (cs : List Char) :
    parseStr (c :: cs) =
      match parseStr cs with
      | some (s, r) => some (c :: s, r)
      | none => none := by
  cases cs <;> simp only [parseStr, if_neg h1, if_neg h2]

theorem parseStr_escape (s : List Char) (rest : List Char) :
    parseStr (escapeChars s ++ '"' :: rest) = some (s, rest) := by
  induction s with
  | nil => simp only [escapeChars, List.nil_append, parseStr_quote]
  | cons c cs ih =>
    by_cases hc : c = '"' ∨ c = '\\'
    · simp only [escapeChars, if_pos hc, List.cons_append]
      rw [parseStr_backslash, ih]
    · have h1 : c ≠ '"' := fun h => hc (Or.inl h)
      have h2 : c ≠ '\\' := fun h => hc (Or.inr h)
      simp only [escapeChars, if_neg hc, List.cons_append]
      rw [parseStr_other h1 h2, ih]

theorem digitB_ne {c d : Char} (h : digitB c = true) (hd : digitB d = false) : c ≠ d := by
  intro hEq
  rw [hEq, hd] at h
  exact Bool.false_ne_true h

theorem parseVal_nullStep (f : Nat) (r : List Char) :
    parseVal (f + 1) ('n' :: 'u' :: 'l' :: 'l' :: r) = some (.null, r) := by
  with_unfolding_all rfl

theorem parseVal_trueStep (f : Nat) (r : List Char) :
    parseVal (f + 1) ('t' :: 'r' :: 'u' :: 'e' :: r) = some (.bool true, r) := by
  with_unfolding_all rfl

theorem parseVal_falseStep (f : Nat) (r : List Char) :
    parseVal (f + 1) ('f' :: 'a' :: 'l' :: 's' :: 'e' :: r) = some (.bool false, r) := by
  with_unfolding_all rfl

theorem parseVal_strStep (f : Nat) (cs : List Char) :
    parseVal (f + 1) ('"' :: cs) =
      match parseStr cs with
      | some (s, r) => some (.str s, r)
      | none => none := by
  with_unfolding_all rfl

theorem parseVal_arrStep (f : Nat) (cs : List Char) :
    parseVal (f + 1) ('[' :: cs) =
      match parseElems f cs with
      | some (es, r) => some (.arr es, r)
      | none => none := by
  with_unfolding_all rfl

theorem parseVal_objStep (f : Nat) (cs : List Char) :
    parseVal (f + 1) (lbrace :: cs) =
      match parseFields f cs with
      | some (fs, r) => some (.obj fs, r)
      | none => none := by
  with_unfolding_all rfl

theorem parseVal_negStep (f : Nat) (cs : List Char) :
    parseVal (f + 1) ('-' :: cs) =
      match parseNat cs with
      | some (m, r) => some (.num (-(m : Int)), r)
      | none => none := by
  with_unfolding_all rfl

theorem parseVal_digitStep (f : Nat) {c : Char} (h : digitB c = true) (cs : List Char) :
    parseVal (f + 1) (c :: cs) =
      match parseNat (c :: cs) with
      | some (m, r) => some (.num (m : Int), r)
      | none => none := by
  have h1 : c ≠ 'n' := digitB_ne h (show digitB 'n' = false by decide)
  have h2 : c ≠ 't' := digitB_ne h (show digitB 't' = false by decide)
  have h3 : c ≠ 'f' := digitB_ne h (show digitB 'f' = false by decide)
  have h4 : c ≠ '"' := digitB_ne h (show digitB '"' = false by decide)
  have h5 : c ≠ '[' := digitB_ne h (show digitB '[' = false by decide)
  have h6 : c ≠ lbrace := digitB_ne h (show digitB lbrace = false by decide)
  have h7 : c ≠ '-' := digitB_ne h (show digitB '-' = false by decide)
  simp only [parseVal, if_neg h1, if_neg h2, if_neg h3, if_neg h4, if_neg h5, if_neg h6,
    if_neg h7]

theorem headDigit_cons (c : Char) (r : List Char) : headDigit (c :: r) = digitB c := rfl

theorem natToChars_cons (m : Nat) : ∃ c ds, natToChars m = c :: ds ∧ digitB c = true := by
  cases h : natToChars m with
  | nil => exact absurd h (natToChars_ne_nil m)
  | cons c ds =>
    refine ⟨c, ds, rfl, natToChars_digits m c ?_⟩
    rw [h]
    exact List.mem_cons_self c ds

theorem printJson_head_not_rbrack (v : Json) (tail : List Char) :
    ¬ (printJson v ++ tail).head? = some ']' := by
  cases v with
  | null => simp [printJson]
  | bool b => cases b <;> simp [printJson]
  | num i =>
    cases i with
    | ofNat m =>
      obtain ⟨c, ds, hm, hc⟩ := natToChars_cons m
      simp only [printJson, printInt, hm, List.cons_append, List.head?]
      intro hEq
      exact digitB_ne hc (show digitB ']' = false by decide) (Option.some.inj hEq)
    | negSucc m => simp [printJson, printInt]
  | str s => simp [printJson, printStr]
  | arr es => simp [printJson]
  | obj fs =>
    have h : ¬(lbrace = ']') := by decide
    simp [printJson, h]

theorem parse_print_aux (n : Nat) :
    (∀ v f rest, jsize v ≤ n → jsize v ≤ f → headDigit rest = false →
      parseVal f (printJson v ++ rest) = some (v, rest)) ∧
    (∀ es f rest, jsizeL es ≤ n → jsizeL es + 1 ≤ f →
      parseElems f (printElems es ++ ']' :: rest) = some (es, rest)) ∧
    (∀ fs f rest, jsizeF fs ≤ n → jsizeF fs + 1 ≤ f →
      parseFields f (printFields fs ++ rbrace :: rest) = some (fs, rest)) := by
  induction n using Nat.strong_induction_on with
  | _ n ih =>
    refine ⟨?_, ?_, ?_⟩
    · intro v f rest hn hf hrest
      cases f with
      | zero => exact absurd hf (by have := jsize_pos v; omega)
      | succ f =>
        cases v with
        | null =>
          simp only [printJson, List.cons_append, List.nil_append]
          exact parseVal_nullStep f rest
        | bool b =>
          cases b
          · rw [show printJson (.bool false) = 'f' :: ['a', 'l', 's', 'e'] from rfl]
            simp only [List.cons_append, List.nil_append]
            exact parseVal_falseStep f rest
          · rw [show printJson (.bool true) = 't' :: ['r', 'u', 'e'] from rfl]
            simp only [List.cons_append, List.nil_append]
            exact parseVal_trueStep f rest
        | num i =>
          cases i with
          | ofNat m =>
            obtain ⟨c, ds, hm, hc⟩ := natToChars_cons m
            have hsplit : printJson (.num (.ofNat m)) ++ rest = c :: (ds ++ rest) := by
              simp [printJson, printInt, hm]
            rw [hsplit, parseVal_digitStep f hc]
            have hback : c :: (ds ++ rest) = natToChars m ++ rest := by
              rw [hm, List.cons_append]
            rw [hback, parseNat_natToChars m hrest]
            rfl
          | negSucc m =>
            simp only [printJson, printInt, List.cons_append]
            rw [parseVal_negStep, parseNat_natToChars (m + 1) hrest]
            simp [Int.negSucc_eq]
        | str s =>
          simp only [printJson, printStr, List.cons_append, List.append_assoc,
            List.singleton_append]
          rw [parseVal_strStep, parseStr_escape]
          simp
        | arr es =>
          simp only [printJson, List.cons_append, List.append_assoc, List.singleton_append,
            List.nil_append]
          rw [parseVal_arrStep]
          have hm : jsizeL es < n := by simp [jsize] at hn; omega
          rw [(ih _ hm).2.1 es f rest le_rfl (by simp [jsize] at hf; omega)]
        | obj fs =>
          simp only [printJson, List.cons_append, List.append_assoc, List.singleton_append,
            List.nil_append]
          rw [parseVal_objStep]
          have hm : jsizeF fs < n := by simp [jsize] at hn; omega
          rw [(ih _ hm).2.2 fs f rest le_rfl (by simp [jsize] at hf; omega)]
    · intro es f rest hn hf
      cases f with
      | zero => exact absurd hf (by omega)
      | succ f =>
        cases es with
        | nil => simp [printElems, parseElems]
        | cons e es2 =>
          have hne : jsize e < n ∧ jsize e ≤ f ∧ jsizeL es2 < n ∧ jsizeL es2 + 1 ≤ f := by
            simp [jsizeL] at hn hf
            have := jsize_pos e
            omega
          cases es2 with
          | nil =>
            have hshape : printElems [e] ++ ']' :: rest = printJson e ++ ']' :: rest := by
              simp [printElems]
            rw [hshape]
            simp only [parseElems, if_neg (printJson_head_not_rbrack e _)]
            rw [(ih _ hne.1).1 e f (']' :: rest) le_rfl hne.2.1
              (by rw [headDigit_cons]; decide)]
            simp
          | cons e2 es3 =>
            have hshape : printElems (e :: e2 :: es3) ++ ']' :: rest =
                printJson e ++ ',' :: (printElems (e2 :: es3) ++ ']' :: rest) := by
              simp [printElems]
            rw [hshape]
            simp only [parseElems, if_neg (printJson_head_not_rbrack e _)]
            rw [(ih _ hne.1).1 e f (',' :: (printElems (e2 :: es3) ++ ']' :: rest)) le_rfl
              hne.2.1 (by rw [headDigit_cons]; decide)]
            simp only [List.head?, List.tail, if_true]
            rw [(ih _ hne.2.2.1).2.1 (e2 :: es3) f rest le_rfl hne.2.2.2]
    · intro fs f rest hn hf
      cases f with
      | zero => exact absurd hf (by omega)
      | succ f =>
        cases fs with
        | nil => simp [printFields, parseFields]
        | cons kv fs2 =>
          obtain ⟨k, v⟩ := kv
          have hne : jsize v < n ∧ jsize v ≤ f ∧ jsizeF fs2 < n ∧ jsizeF fs2 + 1 ≤ f := by
            simp [jsizeF] at hn hf
            have := jsize_pos v
            omega
          have hquote : ¬(('"' : Char) = rbrace) := by decide
          cases fs2 with
          | nil =>
            have hshape : printFields [(k, v)] ++ rbrace :: rest =
                '"' :: (escapeChars k ++ '"' :: (':' :: (printJson v ++ rbrace :: rest))) := by
              simp [printFields, printStr]
            rw [hshape]
            simp only [parseFields, List.head?]
            rw [if_neg (fun h => hquote (Option.some.inj h))]
            simp only [if_true]
            rw [parseStr_escape]
            simp only [List.head?, List.tail]
            simp only [if_true]
            rw [(ih _ hne.1).1 v f (rbrace :: rest) le_rfl hne.2.1
              (by rw [headDigit_cons]; decide)]
            have hcr : ¬((rbrace : Char) = ',') := by decide
            simp only [List.head?, List.tail]
            rw [if_neg (fun h => hcr (Option.some.inj h))]
            simp only [if_true]
          | cons kv2 fs3 =>
            have hshape : printFields ((k, v) :: kv2 :: fs3) ++ rbrace :: rest =
                '"' :: (escapeChars k ++ '"' :: (':' :: (printJson v ++
                  ',' :: (printFields (kv2 :: fs3) ++ rbrace :: rest)))) := by
              simp [printFields, printStr]
            rw [hshape]
            simp only [parseFields, List.head?]
            rw [if_neg (fun h => hquote (Option.some.inj h))]
            simp only [if_true]
            rw [parseStr_escape]
            simp only [List.head?, List.tail]
            simp only [if_true]
            rw [(ih _ hne.1).1 v f (',' :: (printFields (kv2 :: fs3) ++ rbrace :: rest)) le_rfl
              hne.2.1 (by rw [headDigit_cons]; decide)]
            simp only [List.head?, List.tail]
            simp only [if_true]
            rw [(ih _ hne.2.2.1).2.2 (kv2 :: fs3) f rest le_rfl hne.2.2.2]

theorem len_bound_aux (n : Nat) :
    (∀ v, jsize v ≤ n → jsize v ≤ 2 * (printJson v).length) ∧
    (∀ es, jsizeL es ≤ n → jsizeL es ≤ 2 * (printElems es).length + 2) ∧
    (∀ fs, jsizeF fs ≤ n → jsizeF fs ≤ 2 * (printFields fs).length + 2) := by
  induction n using Nat.strong_induction_on with
  | _ n ih =>
    refine ⟨?_, ?_, ?_⟩
    · intro v hn
      cases v with
      | null => simp [jsize, printJson]
      | bool b => cases b <;> simp [jsize, printJson]
      | num i =>
        cases i with
        | ofNat m =>
          obtain ⟨c, ds, hm, hc⟩ := natToChars_cons m
          simp [jsize, printJson, printInt, hm]
          omega
        | negSucc m =>
          simp [jsize, printJson, printInt]
          omega
      | str s =>
        simp [jsize, printJson, printStr]
        omega
      | arr es =>
        have hm : jsizeL es < n := by simp [jsize] at hn; omega
        have h1 := (ih _ hm).2.1 es le_rfl
        simp only [jsize, printJson, List.length_cons, List.length_append,
          List.length_singleton]
        omega
      | obj fs =>
        have hm : jsizeF fs < n := by simp [jsize] at hn; omega
        have h1 := (ih _ hm).2.2 fs le_rfl
        simp only [jsize, printJson, List.length_cons, List.length_append,
          List.length_singleton]
        omega
    · intro es hn
      cases es with
      | nil => simp [jsizeL]
      | cons e es2 =>
        have hsplit : jsize e < n ∧ jsizeL es2 < n := by
          simp [jsizeL] at hn
          have := jsize_pos e
          omega
        have h1 := (ih _ hsplit.1).1 e le_rfl
        have h2 := (ih _ hsplit.2).2.1 es2 le_rfl
        cases es2 with
        | nil =>
          simp only [printElems, jsizeL]
          omega
        | cons e2 es3 =>
          simp only [printElems, jsizeL, List.length_append, List.length_cons] at h2 ⊢
          omega
    · intro fs hn
      cases fs with
      | nil => simp [jsizeF]
      | cons kv fs2 =>
        obtain ⟨k, v⟩ := kv
        have hsplit : jsize v < n ∧ jsizeF fs2 < n := by
          simp [jsizeF] at hn
          have := jsize_pos v
          omega
        have h1 := (ih _ hsplit.1).1 v le_rfl
        have h2 := (ih _ hsplit.2).2.2 fs2 le_rfl
        cases fs2 with
        | nil =>
          simp only [printFields, jsizeF, List.length_append, List.length_cons]
          omega
        | cons kv2 fs3 =>
          simp only [printFields, jsizeF, List.length_append, List.length_cons] at h2 ⊢
          omega

/-- The (model) serializer and reader of the storage service round-trip:
reading back a printed JSON value yields the same value. -/
theorem jsonParse_printJson (v : Json) : jsonParse (String.mk (printJson v)) = some v := by
  unfold jsonParse
  have hdata : (String.mk (printJson v)).data = printJson v := rfl
  rw [hdata]
  have h1 : jsize v ≤ 2 * (printJson v).length := (len_bound_aux (jsize v)).1 v le_rfl
  have h2 := (parse_print_aux (jsize v)).1 v (2 * (printJson v).length + 2) [] le_rfl
    (by omega) rfl
  rw [List.append_nil] at h2
  rw [h2]

/-- The backing store: persisted string keys with string values, in insertion
order, modelling the web `localStorage` backend. -/
abbrev Store := List (String × String)

/-- `localStorage.getItem`: the stored string, or nothing when absent. -/
def getItem : Store → String → Option String
  | [], _ => none
  | (k2, v) :: rest, k => if k2 = k then some v else getItem rest k

/-- `localStorage.setItem`: overwrite in place, append when new. -/
def setItem : Store → String → String → Store
  | [], k, v => [(k, v)]
  | (k2, v2) :: rest, k, v =>
    if k2 = k then (k, v) :: rest else (k2, v2) :: setItem rest k v

/-- A JavaScript value as surfaced by `read`: either a successfully parsed
JSON value, or the raw stored string when `JSON.parse` threw (the failure is
absorbed). -/
inductive JsVal where
  | json (j : Json) : JsVal
  | raw (s : String) : JsVal
deriving DecidableEq

/-- `read` (Storage.js, web branch, lines 43-50): `JSON.parse` the raw item,
resolving with the raw string when parsing throws.  An absent key makes
`getItem` return null and `JSON.parse(null)` yields JSON null. -/
def read (st : Store) (key : String) : JsVal :=
  match getItem st key with
  | none => .json .null
  | some data =>
    match jsonParse data with
    | some j => .json j
    | none => .raw data

/-- `write` (lines 51-54): store the already-serialized string. -/
def write (st : Store) (key value : String) : Store := setItem st key value

/-- `clear` (lines 55-58): "localStorage.clear()" erases every key. -/
def clear (_ : Store) : Store := []

/-- JavaScript truthiness of a JSON value (null, false, 0 and the empty
string are falsy; arrays and objects are always truthy). -/
def jsTruthyJ : Json → Bool
  | .null => false
  | .bool b => b
  | .num n => n != 0
  | .str s => !s.isEmpty
  | .arr _ => true
  | .obj _ => true

/-- JavaScript truthiness of a value surfaced by `read`. -/
def jsTruthy : JsVal → Bool
  | .json j => jsTruthyJ j
  | .raw s => !s.isEmpty

/-- JavaScript falsiness, as tested by `if (!data)`. -/
def jsFalsy (v : JsVal) : Bool := !jsTruthy v

/-- `Storage.stringify` (lines 184-197): strings pass through unchanged;
objects (JavaScript null and arrays included) go to `JSON.stringify`; the
remaining primitives go to `String(data)`, which for the model's integral
numbers and booleans coincides with their JSON rendering. -/
def Storage.stringify : Json → String
  | .str s => String.mk s
  | .null => String.mk (printJson .null)
  | .arr es => String.mk (printJson (.arr es))
  | .obj fs => String.mk (printJson (.obj fs))
  | .num n => String.mk (printInt n)
  | .bool b => String.mk (printJson (.bool b))

/-- `Storage.myParse` (lines 199-201): the identity. -/
def Storage.myParse (data : JsVal) : JsVal := data

/-- `Storage.save` (lines 171-173): serialize and write. -/
def Storage.save (st : Store) (key : String) (value : Json) : Store :=
  write st key (Storage.stringify value)

/-- `Storage.load` (lines 175-178): read then `myParse`. -/
def Storage.load (st : Store) (key : String) : JsVal :=
  Storage.myParse (read st key)

/-- `Storage.clear` (lines 180-182): pass-through to the backend `clear`. -/
def Storage.clear (st : Store) : Store := WavesGUI.clear st

/-- Field lookup in a JSON object (JavaScript property access on parsed
data; absent keys are `undefined`). -/
def lookupField : List (List Char × Json) → List Char → Option Json
  | [], _ => none
  | (k2, v) :: rest, k => if k2 = k then some v else lookupField rest k

/-- Field update in a JSON object: overwrite in place, append when new (the
insertion-order behaviour of JavaScript objects). -/
def setField : List (List Char × Json) → List Char → Json → List (List Char × Json)
  | [], k, v => [(k, v)]
  | (k2, v2) :: rest, k, v =>
    if k2 = k then (k, v) :: rest else (k2, v2) :: setField rest k v

/-- Field removal in a JSON object. -/
def removeField : List (List Char × Json) → List Char → List (List Char × Json)
  | [], _ => []
  | (k2, v) :: rest, k => if k2 = k then rest else (k2, v) :: removeField rest k

/-- Modelled from the spec: the external `ts-utils` `set` helper used by the
migration steps writes `value` at a dotted path inside an object, creating
intermediate objects for missing or non-object links; on a non-object
target it leaves the value unchanged. -/
def tsSet (value : Json) : List (List Char) → Json → Json
  | [], t => t
  | [k], .obj fields => .obj (setField fields k value)
  | [_], t => t
  | k :: rest, .obj fields =>
    .obj (setField fields k (tsSet value rest
      (match lookupField fields k with
       | some (.obj innerF) => .obj innerF
       | _ => .obj [])))
  | _ :: _, t => t

/-- Modelled from the spec: the external `ts-utils` `unset` helper removes
the field at a dotted path inside an object, leaving anything else
unchanged. -/
def tsUnset : List (List Char) → Json → Json
  | [], t => t
  | [k], .obj fields => .obj (removeField fields k)
  | [_], t => t
  | k :: rest, .obj fields =>
    match lookupField fields k with
    | some inner => .obj (setField fields k (tsUnset rest inner))
    | none => .obj fields
  | _ :: _, t => t

/-- Maps a fallible function over a list, failing on the first failure (the
behaviour of a thrown exception inside `Array.prototype.map`/`forEach`). -/
def mapOrThrow (f : α → Option β) (l : List α) : Option (List β) :=
  match l with
  | [] => some []
  | a :: rest =>
    match f a, mapOrThrow f rest with
    | some b, some bs => some (b :: bs)
    | _, _ => none

/-- `idList && !idList.includes(gateway)` followed by `idList.push(gateway)`
(lines 135-137), given the record's fields, its settings object's fields
and the `pinnedAssetIdList` value: append the gateway when the truthy list
lacks it; on a truthy string, `includes` is a substring test and a
successful `push` call does not exist, so only the already-contained case
survives; any other truthy value has no `includes` and throws. -/
def addGatewayPush (gateway : List Char) (fields sf : List (List Char × Json)) :
    Json → Option Json
  | .arr l =>
    if (Json.str gateway) ∈ l then some (.obj fields)
    else some (.obj (setField fields ("settings".data)
      (.obj (setField sf ("pinnedAssetIdList".data)
        (.arr (l ++ [Json.str gateway]))))))
  | .str sc => if List.IsInfix gateway sc then some (.obj fields) else none
  | _ => none

/-- The `idList` truthiness test of line 135 over the looked-up
`settings.pinnedAssetIdList` (absent means undefined, hence falsy). -/
def addGatewayIdList (gateway : List Char) (fields sf : List (List Char × Json)) :
    Option Json → Option Json
  | none => some (.obj fields)
  | some idl =>
    if jsTruthyJ idl then addGatewayPush gateway fields sf idl
    else some (.obj fields)

/-- Reading `settings.pinnedAssetIdList` (line 134): only an object
settings value can hold the list; property access on a truthy primitive
yields undefined, leaving the record unchanged. -/
def addGatewayInSettings (gateway : List Char) (fields : List (List Char × Json)) :
    Json → Option Json
  | .obj sf => addGatewayIdList gateway fields sf
      (lookupField sf ("pinnedAssetIdList".data))
  | _ => some (.obj fields)

/-- `const settings = user.settings || Object.create(null)` (line 133): a
falsy or absent settings value becomes a fresh empty object, whose
`pinnedAssetIdList` is undefined — the record stays unchanged. -/
def addGatewaySettings (gateway : List Char) (fields : List (List Char × Json)) :
    Option Json → Option Json
  | none => some (.obj fields)
  | some s =>
    if jsTruthyJ s then addGatewayInSettings gateway fields s
    else some (.obj fields)

/-- One pass of `addNewGateway`'s forEach body over a single user record
(lines 132-138).  `none` models a thrown TypeError (property access on
null, or `includes`/`push` on an unsupported truthy value). -/
def addGatewayToUser (gateway : List Char) (u : Json) : Option Json :=
  match u with
  | .null => none
  | .obj fields => addGatewaySettings gateway fields
      (lookupField fields ("settings".data))
  | _ => some u

/-- `addNewGateway` (lines 130-142): load the user list, run the per-user
insertion over it, save it back.  In the web branch an absent `userList`
loads as JSON null — not undefined — so the `users = []` parameter default
never applies and any non-array value makes the step reject
(`users.forEach` throws). -/
def addNewGateway (st : Store) (gateway : List Char) : Option Store :=
  match Storage.load st "userList" with
  | .json (.arr users) =>
    match mapOrThrow (addGatewayToUser gateway) users with
    | some users2 => some (Storage.save st "userList" (.arr users2))
    | none => none
  | _ => none

/-- Modelled from the spec: the two gateway asset identifiers come from the
external `WavesApp.defaultAssets` configuration, which is not part of this
excerpt; only their identity as strings matters to the proofs. -/
def defaultAssets_DASH : List Char := "DASH".data

/-- Modelled from the spec: see `defaultAssets_DASH`. -/
def defaultAssets_XMR : List Char := "XMR".data

/-- The account-to-user conversion inside the `1.0.0` step (lines 92-100):
`{address: account.address, encryptedSeed: account.cipher, settings:
{encryptionRounds: 1000}}`.  Property access on JSON null throws; fields
whose source property is absent are `undefined` and hence dropped by the
later `JSON.stringify`. -/
def accountToUser (a : Json) : Option Json :=
  match a with
  | .null => none
  | .obj fields =>
    some (.obj (
      (match lookupField fields ("address".data) with
       | some addr => [(("address".data : List Char), addr)]
       | none => []) ++
      (match lookupField fields ("cipher".data) with
       | some ciph => [(("encryptedSeed".data : List Char), ciph)]
       | none => []) ++
      [(("settings".data : List Char),
        Json.obj [(("encryptionRounds".data : List Char), Json.num 1000)])]))
  | _ =>
    some (.obj [(("settings".data : List Char),
      Json.obj [(("encryptionRounds".data : List Char), Json.num 1000)])])

/-- The `'1.0.0'` migration step (lines 86-103): load the legacy
`Wavesmainnet` record; if it is falsy, complete with no effect; otherwise
rebuild the user list from its accounts, wipe the whole store and save only
`userList`. -/
def migration_1_0_0 (st : Store) : Option Store :=
  let data := Storage.load st "Wavesmainnet"
  if jsFalsy data then some st
  else
    match data with
    | .json (.obj fields) =>
      match lookupField fields ("accounts".data) with
      | some (.arr accounts) =>
        match mapOrThrow accountToUser accounts with
        | some userList =>
          some (Storage.save (Storage.clear st) "userList" (.arr userList))
        | none => none
      | _ => none
    | _ => none

/-- The `'1.0.0-beta.23'` migration step (lines 104-112): stamp
`settings.lastOpenVersion` on every user record and save the list. -/
def migration_beta23 (st : Store) : Option Store :=
  match Storage.load st "userList" with
  | .json (.arr list) =>
    some (Storage.save st "userList" (.arr (list.map
      (tsSet (.str ("1.0.0-beta.22".data)) ["settings".data, "lastOpenVersion".data]))))
  | _ => none

/-- The `'1.0.0-beta.35'` migration step (lines 113-115). -/
def migration_beta35 (st : Store) : Option Store := addNewGateway st defaultAssets_DASH

/-- The `'1.0.0-beta.40'` migration step (lines 116-118). -/
def migration_beta40 (st : Store) : Option Store := addNewGateway st defaultAssets_XMR

/-- The `'1.0.0-beta.47'` migration step (lines 119-127): drop the obsolete
`settings.dex` field from every user record and save the list. -/
def migration_beta47 (st : Store) : Option Store :=
  match Storage.load st "userList" with
  | .json (.arr list) =>
    some (Storage.save st "userList" (.arr (list.map
      (tsUnset ["settings".data, "dex".data]))))
  | _ => none

/-- `MIGRATION_MAP` (lines 85-128): the registered migration steps keyed by
the version they target, in their registration order. -/
def MIGRATION_MAP : List (String × (Store → Option Store)) :=
  [("1.0.0", migration_1_0_0),
   ("1.0.0-beta.23", migration_beta23),
   ("1.0.0-beta.35", migration_beta35),
   ("1.0.0-beta.40", migration_beta40),
   ("1.0.0-beta.47", migration_beta47)]

/-- Modelled from the spec: a semantic-version pre-release identifier of the
external version comparator — numeric, or alphanumeric. -/
inductive PreId where
  | num (n : Nat) : PreId
  | str (s : List Char) : PreId
deriving DecidableEq

/-- Modelled from the spec: a parsed semantic version
`major.minor.patch(-pre)?`. -/
structure SemVer where
  major : Nat
  minor : Nat
  patch : Nat
  pre : List PreId
deriving DecidableEq

/-- Three-way comparison of naturals. -/
def cmpNat (a b : Nat) : Ordering := if a < b then .lt else if b < a then .gt else .eq

/-- Three-way comparison of characters by code point. -/
def cmpChar (a b : Char) : Ordering := cmpNat a.toNat b.toNat

/-- Lexicographic three-way comparison of lists (a proper prefix is
smaller). -/
def cmpList (cmp : α → α → Ordering) : List α → List α → Ordering
  | [], [] => .eq
  | [], _ :: _ => .lt
  | _ :: _, [] => .gt
  | a :: as2, b :: bs =>
    match cmp a b with
    | .eq => cmpList cmp as2 bs
    | o => o

/-- Modelled from the spec: semantic-version pre-release identifier order —
numeric identifiers compare numerically and precede alphanumeric ones,
which compare lexicographically. -/
def cmpPreId : PreId → PreId → Ordering
  | .num a, .num b => cmpNat a b
  | .num _, .str _ => .lt
  | .str _, .num _ => .gt
  | .str a, .str b => cmpList cmpChar a b

/-- Modelled from the spec: pre-release list order — a release (no
pre-release identifiers) is newer than any of its pre-releases; pre-release
lists compare lexicographically. -/
def cmpPre : List PreId → List PreId → Ordering
  | [], [] => .eq
  | [], _ :: _ => .gt
  | _ :: _, [] => .lt
  | a :: as2, b :: bs => cmpList cmpPreId (a :: as2) (b :: bs)

/-- Lexicographic combination of two three-way comparisons. -/
def cmpLex (c1 c2 : α → α → Ordering) (a b : α) : Ordering :=
  match c1 a b with
  | .eq => c2 a b
  | o => o

/-- Modelled from the spec: the semantic-version order used by the external
version comparator. -/
def cmpSemVer : SemVer → SemVer → Ordering :=
  cmpLex (fun a b => cmpNat a.major b.major)
    (cmpLex (fun a b => cmpNat a.minor b.minor)
      (cmpLex (fun a b => cmpNat a.patch b.patch)
        (fun a b => cmpPre a.pre b.pre)))

/-- Splits a character list at the first occurrence of `c`: the part before
it, and the remainder after it when present. -/
def breakAt (c : Char) : List Char → List Char × Option (List Char)
  | [] => ([], none)
  | d :: rest =>
    if d = c then ([], some rest)
    else (d :: (breakAt c rest).1, (breakAt c rest).2)

/-- A nonempty all-digit identifier read as a number. -/
def parseNatAll (s : List Char) : Option Nat :=
  if s ≠ [] ∧ s.all digitB then some (digitsVal s) else none

/-- Modelled from the spec: one dot-separated pre-release identifier —
numeric when all digits, alphanumeric otherwise. -/
def parsePreId (s : List Char) : PreId :=
  match parseNatAll s with
  | some n => .num n
  | none => .str s

/-- Modelled from the spec: parsing a semantic-version tag
`major.minor.patch(-pre(.pre)*)?`; anything else is not a version. -/
def parseVersion (s : String) : Option SemVer :=
  match (breakAt '-' s.data).1.splitOn '.' with
  | [ma, mi, pa] =>
    match parseNatAll ma, parseNatAll mi, parseNatAll pa with
    | some vM, some vm, some vp =>
      some ⟨vM, vm, vp,
        match (breakAt '-' s.data).2 with
        | none => []
        | some pcs => (pcs.splitOn '.').map parsePreId⟩
    | _, _, _ => none
  | _ => none

/-- A version with an unparsable tag, used only as a lookup default. -/
def defaultSemVer : SemVer := ⟨0, 0, 0, []⟩

/-- The parsed version of a key, defaulting for unparsable tags. -/
def parseVersionD (s : String) : SemVer := (parseVersion s).getD defaultSemVer

/-- Non-strict order on version tags, through parsing. -/
def keyLe (a b : String) : Bool :=
  match cmpSemVer (parseVersionD a) (parseVersionD b) with
  | .gt => false
  | _ => true

/-- Strict order on version tags, through parsing. -/
def keyLt (a b : String) : Bool :=
  match cmpSemVer (parseVersionD a) (parseVersionD b) with
  | .lt => true
  | _ => false

/-- Insertion into a version-sorted list of tags. -/
def insertKey (x : String) : List String → List String
  | [] => [x]
  | y :: ys => if keyLe x y then x :: y :: ys else y :: insertKey x ys

/-- Insertion sort of version tags in ascending semantic-version order. -/
def sortVersions : List String → List String
  | [] => []
  | x :: xs => insertKey x (sortVersions xs)

/-- Modelled from the spec: whether a registered key denotes a version
strictly newer than the stored one. -/
def newerB (pv : SemVer) (k : String) : Bool :=
  match parseVersion k with
  | some kv =>
    match cmpSemVer pv kv with
    | .lt => true
    | _ => false
  | none => false

/-- Modelled from the spec: the external `migration.migrateFrom(version,
keys)` collaborator — "the ordered subsequence of registered
migration-step keys" to run, i.e. exactly the keys strictly newer (in
semantic-version order) than the stored version, in ascending order.  A
stored version that is not a semantic version yields no steps. -/
def migrateFrom (version : String) (keys : List String) : List String :=
  match parseVersion version with
  | none => []
  | some pv => sortVersions (keys.filter (newerB pv))

/-- The stored version value as the string handed to the version
comparator (the constructor loads it through `Storage.load`). -/
def versionString : JsVal → String
  | .raw s => s
  | .json (.str s) => String.mk s
  | _ => ""

/-- Events observable during the constructor's migration run: a step's
promise starting, a step's promise fulfilling, and the readiness deferred
resolving with the prior version value. -/
inductive Event where
  | stepStart (v : String) : Event
  | stepEnd (v : String) : Event
  | resolve (prior : JsVal) : Event
deriving DecidableEq

/-- `MIGRATION_MAP[version]`: the registered step for a version key. -/
def stepOf (m : List (String × (Store → Option Store))) (v : String) :
    Store → Option Store :=
  match m with
  | [] => fun _ => none
  | (k, f) :: rest => if k = v then f else stepOf rest v

/-- Result of the sequential migration chain: final store, event trace,
whether every step fulfilled, and the store snapshot after each fulfilled
step. -/
structure ChainResult where
  store : Store
  trace : List Event
  ok : Bool
  snaps : List Store
deriving DecidableEq

/-- Modelled from the spec: `utils.chainCall` runs the bound step functions
strictly sequentially — each step's promise must settle before the next
step starts — and stops at the first rejection, which rejects the chain. -/
def runMigrations (m : List (String × (Store → Option Store))) (st : Store) :
    List String → ChainResult
  | [] => ⟨st, [], true, []⟩
  | v :: vs =>
    match stepOf m v st with
    | some st2 =>
      match runMigrations m st2 vs with
      | ⟨st3, tr, ok, snaps⟩ => ⟨st3, .stepStart v :: .stepEnd v :: tr, ok, st2 :: snaps⟩
    | none => ⟨st, [.stepStart v], false, []⟩

/-- Result of the constructor run: final store, event trace, and every
store state from the moment the migrations start (the state the chain
starts from, then one snapshot per completed step). -/
structure RunResult where
  store : Store
  trace : List Event
  snaps : List Store
deriving DecidableEq

/-- The version keys the runner will migrate through, for a given store:
`migration.migrateFrom(version, Object.keys(MIGRATION_MAP))` (line 155). -/
def applicableWith (m : List (String × (Store → Option Store))) (st : Store) :
    List String :=
  migrateFrom (versionString (Storage.load st "lastVersion")) (m.map Prod.fst)

/-- The `Storage` constructor (lines 146-165) over an arbitrary step map:
load `lastVersion`, immediately save the current application version under
it, then — when a prior version was stored — chain the applicable steps
and resolve the readiness deferred with the prior version after the chain
fulfills; on a fresh store resolve immediately.  The readiness promise is
the spec-modelled part: `$q.defer` resolves once, and `utils.chainCall`
never resolves it on a rejection. -/
def runStorageWith (m : List (String × (Store → Option Store))) (cur : String)
    (st : Store) : RunResult :=
  if jsTruthy (Storage.load st "lastVersion") then
    match runMigrations m (Storage.save st "lastVersion" (.str cur.data))
        (applicableWith m st) with
    | ⟨st2, tr, ok, snaps⟩ =>
      ⟨st2, tr ++ (if ok then [.resolve (Storage.load st "lastVersion")] else []),
        Storage.save st "lastVersion" (.str cur.data) :: snaps⟩
  else
    ⟨Storage.save st "lastVersion" (.str cur.data),
      [.resolve (Storage.load st "lastVersion")],
      [Storage.save st "lastVersion" (.str cur.data)]⟩

/-- The `Storage` constructor over the registered `MIGRATION_MAP`. -/
def runStorage (cur : String) (st : Store) : RunResult :=
  runStorageWith MIGRATION_MAP cur st

/-- The version keys of the step-start events of a trace, in order. -/
def stepStarts : List Event → List String
  | [] => []
  | .stepStart v :: rest => v :: stepStarts rest
  | _ :: rest => stepStarts rest

/-- The trace of a fully fulfilled sequential chain: start and end events
strictly alternating, one pair per step, in order. -/
def flatPairs : List String → List Event
  | [] => []
  | v :: vs => .stepStart v :: .stepEnd v :: flatPairs vs

/-- How often the readiness deferred resolved in a trace. -/
def resolveCount : List Event → Nat
  | [] => 0
  | .resolve _ :: rest => 1 + resolveCount rest
  | _ :: rest => resolveCount rest

/-- A lawful three-way comparison: antisymmetric under swapping, with
transitive strict order and substitutive equivalence. -/
structure IsLawfulCmp (cmp : α → α → Ordering) : Prop where
  swap : ∀ a b, cmp a b = (cmp b a).swap
  lt_trans : ∀ {a b c}, cmp a b = .lt → cmp b c = .lt → cmp a c = .lt
  eq_left : ∀ {a b}, cmp a b = .eq → ∀ c, cmp b c = cmp a c

theorem IsLawfulCmp.gt_of_lt {cmp : α → α → Ordering} (L : IsLawfulCmp cmp) {a b : α}
    (h : cmp a b = .lt) : cmp b a = .gt := by
  have := L.swap b a
  rw [h] at this
  cases h2 : cmp b a <;> rw [h2] at this <;> simp [Ordering.swap] at this <;> tauto

theorem IsLawfulCmp.lt_of_gt {cmp : α → α → Ordering} (L : IsLawfulCmp cmp) {a b : α}
    (h : cmp a b = .gt) : cmp b a = .lt := by
  have := L.swap a b
  rw [h] at this
  cases h2 : cmp b a <;> rw [h2] at this <;> simp [Ordering.swap] at this

theorem cmpNat_lawful : IsLawfulCmp cmpNat := by
  refine ⟨?_, ?_, ?_⟩
  · intro a b
    unfold cmpNat
    split_ifs <;> simp [Ordering.swap] <;> omega
  · intro a b c h1 h2
    unfold cmpNat at h1 h2 ⊢
    split_ifs at h1 h2 ⊢ <;> simp at * <;> omega
  · intro a b h c
    have hab : a = b := by
      unfold cmpNat at h
      split_ifs at h <;> omega
    rw [hab]

theorem cmpChar_lawful : IsLawfulCmp cmpChar := by
  refine ⟨?_, ?_, ?_⟩
  · intro a b
    exact cmpNat_lawful.swap a.toNat b.toNat
  · intro a b c h1 h2
    exact cmpNat_lawful.lt_trans h1 h2
  · intro a b h c
    exact cmpNat_lawful.eq_left h c.toNat

theorem cmpList_lawful {cmp : α → α → Ordering} (L : IsLawfulCmp cmp) :
    IsLawfulCmp (cmpList cmp) := by
  refine ⟨?_, ?_, ?_⟩
  · intro l1
    induction l1 with
    | nil => intro l2; cases l2 <;> simp [cmpList, Ordering.swap]
    | cons a as2 ih =>
      intro l2
      cases l2 with
      | nil => simp [cmpList, Ordering.swap]
      | cons b bs =>
        simp only [cmpList]
        rw [L.swap a b]
        cases h : cmp b a <;> simp [Ordering.swap, ih bs]
  · intro l1
    induction l1 with
    | nil =>
      intro l2 l3 h1 h2
      cases l2 <;> simp [cmpList] at h1 <;> cases l3 <;> simp [cmpList] at h2 ⊢
    | cons a as2 ih =>
      intro l2 l3 h1 h2
      cases l2 with
      | nil => simp [cmpList] at h1
      | cons b bs =>
        cases l3 with
        | nil => simp [cmpList] at h2
        | cons c cs =>
          simp only [cmpList] at h1 h2 ⊢
          cases hab : cmp a b
          case lt =>
            cases hbc : cmp b c
            case lt => rw [L.lt_trans hab hbc]
            case eq =>
              have hca : cmp c a = cmp b a := L.eq_left hbc a
              have hac : cmp a c = Ordering.lt := L.lt_of_gt (hca.trans (L.gt_of_lt hab))
              rw [hac]
            case gt =>
              rw [hbc] at h2
              exact absurd h2 (by simp)
          case eq =>
            rw [hab] at h1
            simp at h1
            have he := L.eq_left hab c
            rw [he] at h2
            cases hac : cmp a c
            case lt => rfl
            case eq =>
              rw [hac] at h2
              simp at h2
              exact ih h1 h2
            case gt =>
              rw [hac] at h2
              exact absurd h2 (by simp)
          case gt =>
            rw [hab] at h1
            exact absurd h1 (by simp)
  · intro l1
    induction l1 with
    | nil =>
      intro l2 h c
      cases l2 <;> simp [cmpList] at h ⊢
    | cons a as2 ih =>
      intro l2 h l3
      cases l2 with
      | nil => simp [cmpList] at h
      | cons b bs =>
        simp only [cmpList] at h ⊢
        cases hab : cmp a b
        case lt =>
          rw [hab] at h
          exact absurd h (by simp)
        case gt =>
          rw [hab] at h
          exact absurd h (by simp)
        case eq =>
          rw [hab] at h
          simp at h
          cases l3 with
          | nil => simp [cmpList]
          | cons c cs =>
            simp only [cmpList]
            rw [L.eq_left hab c, ih h cs]

theorem cmpPreId_lawful : IsLawfulCmp cmpPreId := by
  refine ⟨?_, ?_, ?_⟩
  · intro a b
    cases a <;> cases b <;> simp only [cmpPreId, Ordering.swap]
    · exact cmpNat_lawful.swap _ _
    · exact (cmpList_lawful cmpChar_lawful).swap _ _
  · intro a b c h1 h2
    cases a <;> cases b <;> cases c <;> simp only [cmpPreId] at h1 h2 ⊢ <;>
      first
        | rfl
        | exact cmpNat_lawful.lt_trans h1 h2
        | exact (cmpList_lawful cmpChar_lawful).lt_trans h1 h2
        | simp at h1 h2
  · intro a b h c
    cases a <;> cases b <;> simp only [cmpPreId] at h ⊢ <;> try simp at h
    · cases c <;> simp only [cmpPreId]
      exact cmpNat_lawful.eq_left h _
    · cases c <;> simp only [cmpPreId]
      exact (cmpList_lawful cmpChar_lawful).eq_left h _

theorem cmpPre_lawful : IsLawfulCmp cmpPre := by
  have LP := cmpList_lawful cmpPreId_lawful
  refine ⟨?_, ?_, ?_⟩
  · intro a b
    cases a <;> cases b <;> simp only [cmpPre, Ordering.swap]
    exact LP.swap _ _
  · intro a b c h1 h2
    cases a <;> cases b <;> cases c <;> simp only [cmpPre] at h1 h2 ⊢ <;>
      first
        | rfl
        | exact LP.lt_trans h1 h2
        | simp at h1 h2
  · intro a b h c
    cases a <;> cases b <;> simp only [cmpPre] at h ⊢ <;> try simp at h
    cases c <;> simp only [cmpPre]
    exact LP.eq_left h _

theorem cmpLex_lawful {c1 c2 : α → α → Ordering} (L1 : IsLawfulCmp c1)
    (L2 : IsLawfulCmp c2) : IsLawfulCmp (cmpLex c1 c2) := by
  refine ⟨?_, ?_, ?_⟩
  · intro a b
    simp only [cmpLex]
    rw [L1.swap a b]
    cases h : c1 b a <;> simp [Ordering.swap]
    exact L2.swap a b
  · intro a b c h1 h2
    simp only [cmpLex] at h1 h2 ⊢
    cases hab : c1 a b
    case lt =>
      cases hbc : c1 b c
      case lt => rw [L1.lt_trans hab hbc]
      case eq =>
        have hca : c1 c a = c1 b a := L1.eq_left hbc a
        have hac : c1 a c = Ordering.lt := L1.lt_of_gt (hca.trans (L1.gt_of_lt hab))
        rw [hac]
      case gt =>
        rw [hbc] at h2
        exact absurd h2 (by simp)
    case eq =>
      rw [hab] at h1
      simp at h1
      have he := L1.eq_left hab c
      rw [he] at h2
      cases hac : c1 a c
      case lt => rfl
      case eq =>
        rw [hac] at h2
        simp at h2
        exact L2.lt_trans h1 h2
      case gt =>
        rw [hac] at h2
        exact absurd h2 (by simp)
    case gt =>
      rw [hab] at h1
      exact absurd h1 (by simp)
  · intro a b h c
    simp only [cmpLex] at h ⊢
    cases hab : c1 a b
    case lt =>
      rw [hab] at h
      exact absurd h (by simp)
    case gt =>
      rw [hab] at h
      exact absurd h (by simp)
    case eq =>
      rw [hab] at h
      simp at h
      rw [L1.eq_left hab c, L2.eq_left h c]

theorem cmpBy_lawful {cmp : β → β → Ordering} (f : α → β) (L : IsLawfulCmp cmp) :
    IsLawfulCmp (fun a b => cmp (f a) (f b)) := by
  refine ⟨?_, ?_, ?_⟩
  · intro a b
    exact L.swap (f a) (f b)
  · intro a b c h1 h2
    exact L.lt_trans h1 h2
  · intro a b h c
    exact L.eq_left h (f c)

theorem cmpSemVer_lawful : IsLawfulCmp cmpSemVer := by
  unfold cmpSemVer
  exact cmpLex_lawful (cmpBy_lawful _ cmpNat_lawful)
    (cmpLex_lawful (cmpBy_lawful _ cmpNat_lawful)
      (cmpLex_lawful (cmpBy_lawful _ cmpNat_lawful)
        (cmpBy_lawful _ cmpPre_lawful)))

theorem cmpNat_eq_imp {a b : Nat} (h : cmpNat a b = .eq) : a = b := by
  unfold cmpNat at h
  split_ifs at h <;> omega

theorem char_toNat_inj {a b : Char} (h : a.toNat = b.toNat) : a = b :=
  Char.ext (UInt32.ext h)

theorem cmpChar_eq_imp {a b : Char} (h : cmpChar a b = .eq) : a = b :=
  char_toNat_inj (cmpNat_eq_imp h)

theorem cmpList_eq_imp {cmp : α → α → Ordering}
    (helem : ∀ {a b : α}, cmp a b = .eq → a = b) :
    ∀ {l1 l2 : List α}, cmpList cmp l1 l2 = .eq → l1 = l2 := by
  intro l1
  induction l1 with
  | nil => intro l2 h; cases l2 <;> simp [cmpList] at h ⊢
  | cons a as2 ih =>
    intro l2 h
    cases l2 with
    | nil => simp [cmpList] at h
    | cons b bs =>
      simp only [cmpList] at h
      cases hab : cmp a b <;> rw [hab] at h
      · simp at h
      · rw [helem hab, ih h]
      · simp at h

theorem cmpPreId_eq_imp {a b : PreId} (h : cmpPreId a b = .eq) : a = b := by
  cases a <;> cases b <;> simp only [cmpPreId] at h <;> try simp at h
  · rw [cmpNat_eq_imp h]
  · rw [cmpList_eq_imp (fun h2 => cmpChar_eq_imp h2) h]

theorem cmpPre_eq_imp {a b : List PreId} (h : cmpPre a b = .eq) : a = b := by
  cases a <;> cases b <;> simp only [cmpPre] at h <;> try simp at h
  · rfl
  · exact cmpList_eq_imp (fun h2 => cmpPreId_eq_imp h2) h

theorem cmpSemVer_eq_imp {a b : SemVer} (h : cmpSemVer a b = .eq) : a = b := by
  simp only [cmpSemVer, cmpLex] at h
  cases h1 : cmpNat a.major b.major <;> rw [h1] at h <;> try simp at h
  cases h2 : cmpNat a.minor b.minor <;> rw [h2] at h <;> try simp at h
  cases h3 : cmpNat a.patch b.patch <;> rw [h3] at h <;> try simp at h
  cases a
  cases b
  simp only at h1 h2 h3 h
  rw [cmpNat_eq_imp h1, cmpNat_eq_imp h2, cmpNat_eq_imp h3, cmpPre_eq_imp h]

theorem keyLe_total {a b : String} (h : keyLe a b = false) : keyLe b a = true := by
  simp only [keyLe] at h ⊢
  cases hab : cmpSemVer (parseVersionD a) (parseVersionD b) <;> rw [hab] at h
  · simp at h
  · simp at h
  · rw [cmpSemVer_lawful.lt_of_gt hab]

theorem keyLe_trans {a b c : String} (h1 : keyLe a b = true) (h2 : keyLe b c = true) :
    keyLe a c = true := by
  simp only [keyLe] at h1 h2 ⊢
  cases hab : cmpSemVer (parseVersionD a) (parseVersionD b) <;> rw [hab] at h1
  case lt =>
    cases hbc : cmpSemVer (parseVersionD b) (parseVersionD c) <;> rw [hbc] at h2
    case lt => rw [cmpSemVer_lawful.lt_trans hab hbc]
    case eq =>
      have hca := cmpSemVer_lawful.eq_left hbc (parseVersionD a)
      have hac : cmpSemVer (parseVersionD a) (parseVersionD c) = Ordering.lt :=
        cmpSemVer_lawful.lt_of_gt (hca.trans (cmpSemVer_lawful.gt_of_lt hab))
      rw [hac]
    case gt => simp at h2
  case eq =>
    rw [cmpSemVer_lawful.eq_left hab (parseVersionD c)] at h2
    exact h2
  case gt => simp at h1

theorem keyLt_of_keyLe_ne {a b : String} (h1 : keyLe a b = true)
    (h2 : parseVersionD a ≠ parseVersionD b) : keyLt a b = true := by
  simp only [keyLe] at h1
  simp only [keyLt]
  cases hab : cmpSemVer (parseVersionD a) (parseVersionD b)
  case lt => rfl
  case eq => exact absurd (cmpSemVer_eq_imp hab) h2
  case gt =>
    rw [hab] at h1
    simp at h1

theorem mem_insertKey {a x : String} : ∀ {l : List String},
    a ∈ insertKey x l ↔ a = x ∨ a ∈ l := by
  intro l
  induction l with
  | nil => simp [insertKey]
  | cons y ys ih =>
    simp only [insertKey]
    split_ifs with h
    · simp [List.mem_cons]
    · simp only [List.mem_cons, ih]
      tauto

theorem pairwise_insertKey {x : String} : ∀ {l : List String},
    l.Pairwise (fun a b => keyLe a b = true) →
    (insertKey x l).Pairwise (fun a b => keyLe a b = true) := by
  intro l
  induction l with
  | nil => intro _; simp [insertKey]
  | cons y ys ih =>
    intro h
    rw [List.pairwise_cons] at h
    simp only [insertKey]
    split_ifs with hxy
    · rw [List.pairwise_cons]
      refine ⟨?_, List.pairwise_cons.mpr h⟩
      intro b hb
      rcases List.mem_cons.mp hb with rfl | hb2
      · exact hxy
      · exact keyLe_trans hxy (h.1 b hb2)
    · rw [List.pairwise_cons]
      refine ⟨?_, ih h.2⟩
      intro b hb
      rcases mem_insertKey.mp hb with rfl | hb2
      · exact keyLe_total (Bool.eq_false_iff.mpr hxy)
      · exact h.1 b hb2

theorem sortVersions_pairwise : ∀ (l : List String),
    (sortVersions l).Pairwise (fun a b => keyLe a b = true) := by
  intro l
  induction l with
  | nil => simp [sortVersions]
  | cons x xs ih => exact pairwise_insertKey ih

theorem insertKey_perm (x : String) : ∀ (l : List String),
    List.Perm (insertKey x l) (x :: l) := by
  intro l
  induction l with
  | nil => simp [insertKey]
  | cons y ys ih =>
    simp only [insertKey]
    split_ifs with h
    · exact List.Perm.refl _
    · exact List.Perm.trans (List.Perm.cons y ih) (List.Perm.swap x y ys)

theorem sortVersions_perm : ∀ (l : List String), List.Perm (sortVersions l) l := by
  intro l
  induction l with
  | nil => simp [sortVersions]
  | cons x xs ih => exact List.Perm.trans (insertKey_perm x _) (List.Perm.cons x ih)

theorem mem_sortVersions {a : String} {l : List String} :
    a ∈ sortVersions l ↔ a ∈ l :=
  (sortVersions_perm l).mem_iff

/-- Membership in the spec-modelled upgrade path: exactly the registered
keys whose parsed version is strictly newer than the parsed stored
version. -/
theorem newerB_iff {pv : SemVer} {k : String} :
    newerB pv k = true ↔ ∃ kv, parseVersion k = some kv ∧ cmpSemVer pv kv = .lt := by
  unfold newerB
  cases hkv : parseVersion k with
  | none => simp
  | some kv => cases hc : cmpSemVer pv kv <;> simp [hc]

theorem mem_migrateFrom {version k : String} {keys : List String} :
    k ∈ migrateFrom version keys ↔
      (∃ pv kv, parseVersion version = some pv ∧ parseVersion k = some kv ∧
        cmpSemVer pv kv = .lt ∧ k ∈ keys) := by
  unfold migrateFrom
  cases hv : parseVersion version with
  | none => simp
  | some pv =>
    rw [mem_sortVersions, List.mem_filter]
    constructor
    · rintro ⟨hk, hf⟩
      obtain ⟨kv, hkv, hc⟩ := newerB_iff.mp hf
      exact ⟨pv, kv, rfl, hkv, hc, hk⟩
    · rintro ⟨pv2, kv, hpv2, hkv, hc, hk⟩
      obtain rfl : pv = pv2 := Option.some.inj hpv2
      exact ⟨hk, newerB_iff.mpr ⟨kv, hkv, hc⟩⟩

theorem migrateFrom_pairwise_le (version : String) (keys : List String) :
    (migrateFrom version keys).Pairwise (fun a b => keyLe a b = true) := by
  unfold migrateFrom
  cases parseVersion version with
  | none => simp
  | some pv => exact sortVersions_pairwise _

theorem migrateFrom_pairwise_ne (version : String) {keys : List String}
    (h : keys.Pairwise (fun a b => parseVersionD a ≠ parseVersionD b)) :
    (migrateFrom version keys).Pairwise (fun a b => parseVersionD a ≠ parseVersionD b) := by
  unfold migrateFrom
  cases parseVersion version with
  | none => simp
  | some pv =>
    have hfilter := h.filter (newerB pv)
    exact ((sortVersions_perm _).symm.pairwise hfilter (fun h2 => Ne.symm h2))

/-- The upgrade path is strictly ascending in semantic-version order
whenever the registered keys denote distinct versions. -/
theorem migrateFrom_pairwise_lt {version : String} {keys : List String}
    (h : keys.Pairwise (fun a b => parseVersionD a ≠ parseVersionD b)) :
    (migrateFrom version keys).Pairwise (fun a b => keyLt a b = true) := by
  have h1 := migrateFrom_pairwise_le version keys
  have h2 := migrateFrom_pairwise_ne version h
  exact (h1.and h2).imp (fun hab => keyLt_of_keyLe_ne hab.1 hab.2)

theorem resolveCount_append (t1 t2 : List Event) :
    resolveCount (t1 ++ t2) = resolveCount t1 + resolveCount t2 := by
  induction t1 with
  | nil => simp [resolveCount]
  | cons e rest ih => cases e <;> simp [resolveCount, ih] <;> omega

theorem resolveCount_flatPairs (vs : List String) : resolveCount (flatPairs vs) = 0 := by
  induction vs with
  | nil => rfl
  | cons v rest ih => simp [flatPairs, resolveCount, ih]

theorem stepStarts_append (t1 t2 : List Event) :
    stepStarts (t1 ++ t2) = stepStarts t1 ++ stepStarts t2 := by
  induction t1 with
  | nil => rfl
  | cons e rest ih => cases e <;> simp [stepStarts, ih]

theorem stepStarts_flatPairs (vs : List String) : stepStarts (flatPairs vs) = vs := by
  induction vs with
  | nil => rfl
  | cons v rest ih => simp [flatPairs, stepStarts, ih]

/-- Shape of the spec-modelled sequential chain: either every step
fulfilled and the trace is the full alternating start/end sequence, or
some step rejected and the trace covers exactly the steps before it plus
the start of the rejecting step — nothing after it ran. -/
theorem runMigrations_shape (m : List (String × (Store → Option Store))) :
    ∀ (vs : List String) (st : Store),
      ((runMigrations m st vs).ok = true ∧
        (runMigrations m st vs).trace = flatPairs vs) ∨
      ((runMigrations m st vs).ok = false ∧ ∃ pre v post, vs = pre ++ v :: post ∧
        (runMigrations m st vs).trace = flatPairs pre ++ [.stepStart v]) := by
  intro vs
  induction vs with
  | nil =>
    intro st
    left
    simp [runMigrations, flatPairs]
  | cons v vs2 ih =>
    intro st
    cases hstep : stepOf m v st with
    | none =>
      right
      refine ⟨?_, [], v, vs2, rfl, ?_⟩ <;> simp [runMigrations, hstep, flatPairs]
    | some st2 =>
      have hrec := ih st2
      rcases hr : runMigrations m st2 vs2 with ⟨st3, tr, ok, snaps⟩
      rw [hr] at hrec
      simp only [runMigrations, hstep, hr]
      rcases hrec with ⟨hok, htr⟩ | ⟨hok, pre, w, post, hvs, htr⟩
      · left
        simp only at hok htr
        subst hok
        subst htr
        exact ⟨rfl, rfl⟩
      · right
        simp only at hok htr
        subst hok
        subst htr
        refine ⟨rfl, v :: pre, w, post, by rw [hvs]; simp, rfl⟩

theorem getItem_setItem_self : ∀ (st : Store) (k v : String),
    getItem (setItem st k v) k = some v := by
  intro st k v
  induction st with
  | nil => simp [setItem, getItem]
  | cons p rest ih =>
    obtain ⟨k2, v2⟩ := p
    simp only [setItem]
    split_ifs with h
    · simp [getItem]
    · simp [getItem, h, ih]

theorem getItem_setItem_ne : ∀ (st : Store) {k k2 : String}, k2 ≠ k → ∀ (v : String),
    getItem (setItem st k v) k2 = getItem st k2 := by
  intro st
  induction st with
  | nil =>
    intro k k2 h v
    simp only [setItem, getItem]
    rw [if_neg (fun h2 : k = k2 => h h2.symm)]
  | cons p rest ih =>
    intro k k2 h v
    obtain ⟨k3, v3⟩ := p
    simp only [setItem]
    split_ifs with h3
    · subst h3
      have hne : ¬(k3 = k2) := fun h2 => h h2.symm
      simp [getItem, hne]
    · simp only [getItem, ih h]

theorem load_eq_raw {st : Store} {k s : String} (h1 : getItem st k = some s)
    (h2 : jsonParse s = none) : Storage.load st k = .raw s := by
  unfold Storage.load Storage.myParse read
  rw [h1]
  simp [h2]

theorem load_eq_null {st : Store} {k : String} (h1 : getItem st k = none) :
    Storage.load st k = .json .null := by
  unfold Storage.load Storage.myParse read
  rw [h1]


theorem truthy_raw_of_parseVersion {s : String} {pv : SemVer}
    (h : parseVersion s = some pv) : jsTruthy (.raw s) = true := by
  simp only [jsTruthy]
  cases hs : s.isEmpty
  · rfl
  · rw [String.isEmpty_iff] at hs
    subst hs
    rw [show parseVersion "" = none by decide] at h
    exact absurd h (by simp)

theorem load_preserved {st st2 : Store} {k : String}
    (h : getItem st2 k = getItem st k) : Storage.load st2 k = Storage.load st k := by
  unfold Storage.load Storage.myParse read
  rw [h]

theorem migration_1_0_0_falsy {st : Store}
    (h : jsFalsy (Storage.load st "Wavesmainnet") = true) :
    migration_1_0_0 st = some st := by
  unfold migration_1_0_0
  rw [if_pos h]

theorem migration_beta23_frame {st st2 : Store} (h : migration_beta23 st = some st2) :
    ∀ k, k ≠ "userList" → getItem st2 k = getItem st k := by
  unfold migration_beta23 at h
  intro k hk
  cases hl : Storage.load st "userList" with
  | json j =>
    rw [hl] at h
    cases j <;> simp at h
    rw [← h]
    exact getItem_setItem_ne st hk _
  | raw s =>
    rw [hl] at h
    simp at h

theorem migration_beta47_frame {st st2 : Store} (h : migration_beta47 st = some st2) :
    ∀ k, k ≠ "userList" → getItem st2 k = getItem st k := by
  unfold migration_beta47 at h
  intro k hk
  cases hl : Storage.load st "userList" with
  | json j =>
    rw [hl] at h
    cases j <;> simp at h
    rw [← h]
    exact getItem_setItem_ne st hk _
  | raw s =>
    rw [hl] at h
    simp at h

theorem addNewGateway_frame {st st2 : Store} {g : List Char}
    (h : addNewGateway st g = some st2) :
    ∀ k, k ≠ "userList" → getItem st2 k = getItem st k := by
  unfold addNewGateway at h
  intro k hk
  cases hl : Storage.load st "userList" with
  | json j =>
    rw [hl] at h
    cases j <;> simp at h
    case arr users =>
    cases hm : mapOrThrow (addGatewayToUser g) users with
    | some users2 =>
      rw [hm] at h
      simp at h
      rw [← h]
      exact getItem_setItem_ne st hk _
    | none =>
      rw [hm] at h
      simp at h
  | raw s =>
    rw [hl] at h
    simp at h

/-- Every registered migration step, run to fulfillment on a store whose
legacy `Wavesmainnet` record is falsy, writes only `userList`. -/
theorem step_preserves {v : String} {st st2 : Store}
    (hlegacy : jsFalsy (Storage.load st "Wavesmainnet") = true)
    (h : stepOf MIGRATION_MAP v st = some st2) :
    ∀ k, k ≠ "userList" → getItem st2 k = getItem st k := by
  unfold MIGRATION_MAP at h
  simp only [stepOf] at h
  split_ifs at h
  · rw [migration_1_0_0_falsy hlegacy] at h
    intro k hk
    rw [Option.some.inj h]
  · exact migration_beta23_frame h
  · unfold migration_beta35 at h
    exact addNewGateway_frame h
  · unfold migration_beta40 at h
    exact addNewGateway_frame h
  · exact migration_beta47_frame h

/-- Through any fulfilled prefix of the migration chain, with falsy legacy
data, `lastVersion` and `Wavesmainnet` stay untouched in every snapshot
and in the final store. -/
theorem chain_preserves : ∀ (vs : List String) (st : Store),
    jsFalsy (Storage.load st "Wavesmainnet") = true →
    ((∀ s2 ∈ (runMigrations MIGRATION_MAP st vs).snaps,
        getItem s2 "lastVersion" = getItem st "lastVersion") ∧
      getItem (runMigrations MIGRATION_MAP st vs).store "lastVersion" =
        getItem st "lastVersion") := by
  intro vs
  induction vs with
  | nil =>
    intro st hlegacy
    simp [runMigrations]
  | cons v vs2 ih =>
    intro st hlegacy
    cases hstep : stepOf MIGRATION_MAP v st with
    | none => simp [runMigrations, hstep]
    | some st2 =>
      have hframe := step_preserves hlegacy hstep
      have hlegacy2 : jsFalsy (Storage.load st2 "Wavesmainnet") = true := by
        rw [load_preserved (hframe "Wavesmainnet" (by decide))]
        exact hlegacy
      have hlast : getItem st2 "lastVersion" = getItem st "lastVersion" :=
        hframe "lastVersion" (by decide)
      have hrec := ih st2 hlegacy2
      rcases hr : runMigrations MIGRATION_MAP st2 vs2 with ⟨st3, tr, ok, snaps⟩
      rw [hr] at hrec
      simp only [runMigrations, hstep, hr]
      simp only at hrec ⊢
      constructor
      · intro s2 hs2
        rcases List.mem_cons.mp hs2 with rfl | hs3
        · exact hlast
        · rw [hrec.1 s2 hs3, hlast]
      · rw [hrec.2, hlast]

theorem lookupField_setField_self (fs : List (List Char × Json)) (k : List Char)
    (v : Json) : lookupField (setField fs k v) k = some v := by
  induction fs with
  | nil => simp [setField, lookupField]
  | cons p rest ih =>
    obtain ⟨k2, v2⟩ := p
    simp only [setField]
    split_ifs with h
    · simp [lookupField]
    · simp [lookupField, h, ih]

/-- The keys of the registered migration map denote pairwise distinct
semantic versions. -/
theorem MIGRATION_MAP_keys_distinct :
    (MIGRATION_MAP.map Prod.fst).Pairwise
      (fun a b => parseVersionD a ≠ parseVersionD b) := by decide

/-- Whether a JSON value is a JavaScript string. -/
def isStrJ : Json → Bool
  | .str _ => true
  | _ => false

theorem versionString_raw (s : String) : versionString (.raw s) = s := rfl

theorem applicableWith_eq {m : List (String × (Store → Option Store))} {st : Store}
    {s : String} (hload : Storage.load st "lastVersion" = .raw s) :
    applicableWith m st = migrateFrom s (m.map Prod.fst) := by
  unfold applicableWith
  rw [hload, versionString_raw]

/-- The constructor run in an upgrade scenario, unfolded: the prior
version loads as the raw stored string, the current version is saved, and
the chain runs over the applicable versions. -/
theorem runStorageWith_truthy_eq (m : List (String × (Store → Option Store)))
    (cur : String) {st s pv} (hstored : getItem st "lastVersion" = some s)
    (hnojson : jsonParse s = none) (hpv : parseVersion s = some pv) :
    runStorageWith m cur st =
      ⟨(runMigrations m (Storage.save st "lastVersion" (.str cur.data))
          (applicableWith m st)).store,
        (runMigrations m (Storage.save st "lastVersion" (.str cur.data))
          (applicableWith m st)).trace ++
          (if (runMigrations m (Storage.save st "lastVersion" (.str cur.data))
            (applicableWith m st)).ok then [.resolve (.raw s)] else []),
        Storage.save st "lastVersion" (.str cur.data) ::
          (runMigrations m (Storage.save st "lastVersion" (.str cur.data))
            (applicableWith m st)).snaps⟩ := by
  have hload := load_eq_raw hstored hnojson
  unfold runStorageWith
  rw [hload, truthy_raw_of_parseVersion hpv]
  simp only [eq_self_iff_true, if_true]

/-- C5: On a fresh install (no `lastVersion` key persisted), `onReady()`
resolves with the absent prior-version value (JavaScript null, the falsy
"undefined prior version" signal of the web branch) and no migration step
function executes: the whole observable trace is that single resolution. -/
theorem C5_fresh_install_resolves_null_no_steps (cur : String) (st : Store)
    (h : getItem st "lastVersion" = none) :
    (runStorage cur st).trace = [.resolve (.json .null)] ∧
    stepStarts (runStorage cur st).trace = [] ∧
    jsFalsy (.json .null) = true := by
  have hload := load_eq_null h
  unfold runStorage runStorageWith
  rw [hload]
  exact ⟨rfl, rfl, rfl⟩

/-- C5 witness: a fresh empty store. -/
theorem C5_witness :
    (runStorage "1.0.12" ([] : Store)).trace = [.resolve (.json .null)] :=
  (C5_fresh_install_resolves_null_no_steps "1.0.12" [] (by decide)).1

/-- C6: for every key and every non-string JSON value, saving then loading
returns the parsed value, deep-equal (structurally equal) to the saved
one. -/
theorem C6_save_load_roundtrips_nonstring (st : Store) (k : String) (v : Json)
    (h : isStrJ v = false) :
    Storage.load (Storage.save st k v) k = .json v := by
  unfold Storage.load Storage.save Storage.myParse read write
  rw [getItem_setItem_self]
  have hstr : Storage.stringify v = String.mk (printJson v) := by
    cases v <;> first | rfl | simp [isStrJ] at h
  rw [hstr]
  simp [jsonParse_printJson]

/-- C6 witness: an object survives the save/load roundtrip. -/
theorem C6_witness :
    Storage.load (Storage.save [] "settings" (.obj [("a".data, .num 1)])) "settings" =
      .json (.obj [("a".data, .num 1)]) :=
  C6_save_load_roundtrips_nonstring [] "settings" (.obj [("a".data, .num 1)]) (by decide)

/-- C7: for every key and every string that the JSON reader rejects,
saving then loading returns the raw string unchanged — the decode failure
is absorbed by `read`'s fallback (the model's `load` is total and returns
`raw` in this case rather than propagating an error). -/
theorem C7_nonjson_string_loads_raw (st : Store) (k : String) (s : String)
    (h : jsonParse s = none) :
    Storage.load (Storage.save st k (.str s.data)) k = .raw s := by
  obtain ⟨l⟩ := s
  unfold Storage.load Storage.save Storage.myParse read write Storage.stringify
  rw [getItem_setItem_self]
  simp [h]

/-- C7 witness: a version-like string is not JSON and comes back raw. -/
theorem C7_witness :
    Storage.load (Storage.save [] "lastVersion" (.str ("1.0.0".data))) "lastVersion" =
      .raw "1.0.0" :=
  C7_nonjson_string_loads_raw [] "lastVersion" "1.0.0" (by decide)

/-- C9: after `clear()`, loading any previously saved key yields the
absent/empty result (JSON null, the web branch's reading of a missing
key): `clear` erases all persisted keys. -/
theorem C9_clear_erases_all (st : Store) (k : String) (v : Json) :
    Storage.load (Storage.clear (Storage.save st k v)) k = .json .null := rfl

/-- C10: when the legacy `Wavesmainnet` record is absent or falsy, the
`1.0.0` migration step fulfills while writing nothing: the resulting store
is the input store itself, every entry unchanged; the wipe-then-rewrite
only happens with truthy legacy data. -/
theorem C10_legacy_absent_step_is_noop (st : Store)
    (h : jsFalsy (Storage.load st "Wavesmainnet") = true) :
    migration_1_0_0 st = some st :=
  migration_1_0_0_falsy h

/-- C10 witness: a store without the legacy key is left untouched. -/
theorem C10_witness :
    migration_1_0_0 [("userList", "[]")] = some [("userList", "[]")] :=
  C10_legacy_absent_step_is_noop [("userList", "[]")] (by decide)

/-- C1: in an upgrade scenario (a prior semantic version stored under
`lastVersion`), when every applicable step fulfills, the runner executes
exactly the registered steps whose version keys are strictly newer than
the prior version — no others — in ascending order, and the readiness
deferred resolves exactly once, with the prior version value, strictly
after the last step's completion event. -/
theorem C1_upgrade_runs_exact_newer_steps (st : Store) (cur s : String) (pv : SemVer)
    (hstored : getItem st "lastVersion" = some s)
    (hnojson : jsonParse s = none)
    (hpv : parseVersion s = some pv)
    (hok : (runMigrations MIGRATION_MAP (Storage.save st "lastVersion" (.str cur.data))
      (applicableWith MIGRATION_MAP st)).ok = true) :
    (runStorage cur st).trace =
        flatPairs (applicableWith MIGRATION_MAP st) ++ [.resolve (.raw s)] ∧
    (∀ k, k ∈ stepStarts (runStorage cur st).trace ↔
      ∃ kv, parseVersion k = some kv ∧ cmpSemVer pv kv = .lt ∧
        k ∈ MIGRATION_MAP.map Prod.fst) ∧
    (stepStarts (runStorage cur st).trace).Pairwise (fun a b => keyLt a b = true) ∧
    resolveCount (runStorage cur st).trace = 1 := by
  have hload := load_eq_raw hstored hnojson
  have hrun := runStorageWith_truthy_eq MIGRATION_MAP cur hstored hnojson hpv
  rw [hok] at hrun
  simp only [if_true] at hrun
  rcases runMigrations_shape MIGRATION_MAP (applicableWith MIGRATION_MAP st)
      (Storage.save st "lastVersion" (.str cur.data)) with ⟨_, htr⟩ | ⟨hbad, _⟩
  · rw [htr] at hrun
    have htrace : (runStorage cur st).trace =
        flatPairs (applicableWith MIGRATION_MAP st) ++ [.resolve (.raw s)] := by
      rw [show runStorage cur st = runStorageWith MIGRATION_MAP cur st from rfl, hrun]
    have hA : applicableWith MIGRATION_MAP st =
        migrateFrom s (MIGRATION_MAP.map Prod.fst) := applicableWith_eq hload
    have hss : stepStarts (runStorage cur st).trace = applicableWith MIGRATION_MAP st := by
      rw [htrace, stepStarts_append, stepStarts_flatPairs]
      simp [stepStarts]
    refine ⟨htrace, ?_, ?_, ?_⟩
    · intro k
      rw [hss, hA, mem_migrateFrom]
      constructor
      · rintro ⟨pv2, kv, hpv2, hkv, hlt, hmem⟩
        rw [hpv] at hpv2
        obtain rfl := Option.some.inj hpv2
        exact ⟨kv, hkv, hlt, hmem⟩
      · rintro ⟨kv, hkv, hlt, hmem⟩
        exact ⟨pv, kv, hpv, hkv, hlt, hmem⟩
    · rw [hss, hA]
      exact migrateFrom_pairwise_lt MIGRATION_MAP_keys_distinct
    · rw [htrace, resolveCount_append, resolveCount_flatPairs]
      rfl
  · rw [hok] at hbad
    exact absurd hbad (by simp)

/-- C1 witness: the spec's own scenario — prior version `1.0.0`, whose
strictly-newer subset of the registered keys is empty, so the trace is the
single resolution with the prior version. -/
theorem C1_witness :
    (runStorage "1.0.12" [("lastVersion", "1.0.0")]).trace =
      [.resolve (.raw "1.0.0")] := by
  have h := C1_upgrade_runs_exact_newer_steps [("lastVersion", "1.0.0")] "1.0.12"
    "1.0.0" ⟨1, 0, 0, []⟩ (by decide) (by decide) (by decide) (by decide)
  have h2 : applicableWith MIGRATION_MAP [("lastVersion", "1.0.0")] = [] := by decide
  rw [h2] at h
  exact h.1

/-- C2: if a migration step's promise rejects, the readiness promise is
never resolved (no resolution event occurs at all) and no step after the
rejecting one runs: the trace covers exactly the fulfilled steps before it
and the start of the rejecting step. -/
theorem C2_step_rejection_never_resolves (st : Store) (cur s : String) (pv : SemVer)
    (hstored : getItem st "lastVersion" = some s)
    (hnojson : jsonParse s = none)
    (hpv : parseVersion s = some pv)
    (hfail : (runMigrations MIGRATION_MAP (Storage.save st "lastVersion" (.str cur.data))
      (applicableWith MIGRATION_MAP st)).ok = false) :
    resolveCount (runStorage cur st).trace = 0 ∧
    ∃ pre v post, applicableWith MIGRATION_MAP st = pre ++ v :: post ∧
      (runStorage cur st).trace = flatPairs pre ++ [.stepStart v] := by
  have hrun := runStorageWith_truthy_eq MIGRATION_MAP cur hstored hnojson hpv
  rw [hfail] at hrun
  simp only [Bool.false_eq_true, if_false, List.append_nil] at hrun
  rcases runMigrations_shape MIGRATION_MAP (applicableWith MIGRATION_MAP st)
      (Storage.save st "lastVersion" (.str cur.data)) with ⟨hok2, _⟩ | ⟨_, pre, v, post, hsplit, htr⟩
  · rw [hfail] at hok2
    exact absurd hok2 (by simp)
  · rw [htr] at hrun
    have htrace : (runStorage cur st).trace = flatPairs pre ++ [.stepStart v] := by
      rw [show runStorage cur st = runStorageWith MIGRATION_MAP cur st from rfl, hrun]
    refine ⟨?_, pre, v, post, hsplit, htrace⟩
    rw [htrace, resolveCount_append, resolveCount_flatPairs]
    rfl

/-- C2 witness: with prior version `1.0.0-beta.20` and no stored
`userList`, the `1.0.0-beta.23` step rejects (it maps over a null list),
so the chain stops there and the trace never resolves. -/
theorem C2_witness :
    resolveCount (runStorage "1.0.12" [("lastVersion", "1.0.0-beta.20")]).trace = 0 :=
  (C2_step_rejection_never_resolves [("lastVersion", "1.0.0-beta.20")] "1.0.12"
    "1.0.0-beta.20" ⟨1, 0, 0, [.str ("beta".data), .num 20]⟩
    (by decide) (by decide) (by decide) (by decide)).1

/-- C3: for any registration order of the step map (any key list with
pairwise distinct parsed versions), the startup chain runs the applicable
steps strictly sequentially — the trace is the alternating start/end
sequence of a prefix of the applicable list, a step's settle event always
preceding the next step's start — and the applicable list itself is in
strictly ascending semantic-version order. -/
theorem C3_steps_sequential_ascending (m : List (String × (Store → Option Store)))
    (cur : String) (st : Store) (s : String) (pv : SemVer)
    (hstored : getItem st "lastVersion" = some s)
    (hnojson : jsonParse s = none)
    (hpv : parseVersion s = some pv)
    (hkeys : (m.map Prod.fst).Pairwise (fun a b => parseVersionD a ≠ parseVersionD b)) :
    ((runStorageWith m cur st).trace =
        flatPairs (applicableWith m st) ++ [.resolve (.raw s)] ∨
      ∃ pre v post, applicableWith m st = pre ++ v :: post ∧
        (runStorageWith m cur st).trace = flatPairs pre ++ [.stepStart v]) ∧
    (applicableWith m st).Pairwise (fun a b => keyLt a b = true) := by
  have hload := load_eq_raw hstored hnojson
  have hrun := runStorageWith_truthy_eq m cur hstored hnojson hpv
  constructor
  · rcases runMigrations_shape m (applicableWith m st)
        (Storage.save st "lastVersion" (.str cur.data)) with ⟨hok, htr⟩ |
        ⟨hbad, pre, v, post, hsplit, htr⟩
    · left
      rw [hok] at hrun
      simp only [if_true] at hrun
      rw [htr] at hrun
      rw [hrun]
    · right
      rw [hbad] at hrun
      simp only [Bool.false_eq_true, if_false, List.append_nil] at hrun
      rw [htr] at hrun
      exact ⟨pre, v, post, hsplit, by rw [hrun]⟩
  · rw [applicableWith_eq hload]
    exact migrateFrom_pairwise_lt hkeys

/-- C3 witness: a store upgrading from `1.0.0-beta.36` through the
registered map — three steps apply, in ascending order. -/
theorem C3_witness :
    (applicableWith MIGRATION_MAP [("lastVersion", "1.0.0-beta.36"),
      ("userList", "[]")]).Pairwise (fun a b => keyLt a b = true) :=
  (C3_steps_sequential_ascending MIGRATION_MAP "1.0.12"
    [("lastVersion", "1.0.0-beta.36"), ("userList", "[]")] "1.0.0-beta.36"
    ⟨1, 0, 0, [.str ("beta".data), .num 36]⟩
    (by decide) (by decide) (by decide) (by decide)).2

/-- C8: the per-user gateway insertion is idempotent — a second run on the
produced record fulfills and changes nothing, so no duplicate is ever
inserted — and it changes the record at all only when the pinned-asset
list exists and lacks the gateway, in which case the gateway is appended
after the existing entries, preserving their order. -/
theorem C8_gateway_insertion_idempotent (g : List Char) (u u2 : Json)
    (h : addGatewayToUser g u = some u2) :
    addGatewayToUser g u2 = some u2 ∧
    (u2 = u ∨ ∃ fields sf l, u = .obj fields ∧
      lookupField fields ("settings".data) = some (.obj sf) ∧
      lookupField sf ("pinnedAssetIdList".data) = some (.arr l) ∧
      (Json.str g) ∉ l ∧
      u2 = .obj (setField fields ("settings".data) (.obj (setField sf
        ("pinnedAssetIdList".data) (.arr (l ++ [Json.str g])))))) := by
  have h0 := h
  cases u with
  | null => simp [addGatewayToUser] at h
  | bool b =>
    obtain rfl := Option.some.inj h.symm
    exact ⟨h0, Or.inl rfl⟩
  | num n =>
    obtain rfl := Option.some.inj h.symm
    exact ⟨h0, Or.inl rfl⟩
  | str sc =>
    obtain rfl := Option.some.inj h.symm
    exact ⟨h0, Or.inl rfl⟩
  | arr l =>
    obtain rfl := Option.some.inj h.symm
    exact ⟨h0, Or.inl rfl⟩
  | obj fields =>
    simp only [addGatewayToUser] at h
    cases hs : lookupField fields ("settings".data) with
    | none =>
      rw [hs] at h
      simp only [addGatewaySettings] at h
      obtain rfl := Option.some.inj h.symm
      exact ⟨h0, Or.inl rfl⟩
    | some sv =>
      rw [hs] at h
      simp only [addGatewaySettings] at h
      by_cases ht : jsTruthyJ sv = true
      · rw [if_pos ht] at h
        cases sv with
        | obj sf =>
          simp only [addGatewayInSettings] at h
          cases hp : lookupField sf ("pinnedAssetIdList".data) with
          | none =>
            rw [hp] at h
            simp only [addGatewayIdList] at h
            obtain rfl := Option.some.inj h.symm
            exact ⟨h0, Or.inl rfl⟩
          | some idl =>
            rw [hp] at h
            simp only [addGatewayIdList] at h
            by_cases hti : jsTruthyJ idl = true
            · rw [if_pos hti] at h
              cases idl with
              | arr l =>
                simp only [addGatewayPush] at h
                by_cases hmem : (Json.str g) ∈ l
                · rw [if_pos hmem] at h
                  obtain rfl := Option.some.inj h.symm
                  exact ⟨h0, Or.inl rfl⟩
                · rw [if_neg hmem] at h
                  obtain rfl := Option.some.inj h.symm
                  constructor
                  · simp only [addGatewayToUser, lookupField_setField_self,
                      addGatewaySettings, jsTruthyJ, if_true, addGatewayInSettings,
                      addGatewayIdList, addGatewayPush]
                    rw [if_pos (by simp : (Json.str g) ∈ l ++ [Json.str g])]
                  · exact Or.inr ⟨fields, sf, l, rfl, hs, hp, hmem, rfl⟩
              | str sc =>
                simp only [addGatewayPush] at h
                by_cases hsub : List.IsInfix g sc
                · rw [if_pos hsub] at h
                  obtain rfl := Option.some.inj h.symm
                  exact ⟨h0, Or.inl rfl⟩
                · rw [if_neg hsub] at h
                  simp at h
              | null => simp [addGatewayPush] at h
              | bool b => simp [addGatewayPush] at h
              | num n => simp [addGatewayPush] at h
              | obj f2 => simp [addGatewayPush] at h
            · rw [if_neg hti] at h
              obtain rfl := Option.some.inj h.symm
              exact ⟨h0, Or.inl rfl⟩
        | null =>
          rw [show jsTruthyJ .null = false from rfl] at ht
          exact absurd ht (by simp)
        | bool b =>
          simp only [addGatewayInSettings] at h
          obtain rfl := Option.some.inj h.symm
          exact ⟨h0, Or.inl rfl⟩
        | num n =>
          simp only [addGatewayInSettings] at h
          obtain rfl := Option.some.inj h.symm
          exact ⟨h0, Or.inl rfl⟩
        | str sc =>
          simp only [addGatewayInSettings] at h
          obtain rfl := Option.some.inj h.symm
          exact ⟨h0, Or.inl rfl⟩
        | arr l2 =>
          simp only [addGatewayInSettings] at h
          obtain rfl := Option.some.inj h.symm
          exact ⟨h0, Or.inl rfl⟩
      · rw [if_neg ht] at h
        obtain rfl := Option.some.inj h.symm
        exact ⟨h0, Or.inl rfl⟩

/-- C8 witness: inserting a fresh gateway into a one-entry pinned list,
then re-running the step on the result, leaves it unchanged. -/
theorem C8_witness :
    addGatewayToUser ("G".data)
      (.obj [("settings".data, .obj [("pinnedAssetIdList".data,
        .arr [.str ("A".data), .str ("G".data)])])]) =
      some (.obj [("settings".data, .obj [("pinnedAssetIdList".data,
        .arr [.str ("A".data), .str ("G".data)])])]) :=
  (C8_gateway_insertion_idempotent ("G".data)
    (.obj [("settings".data, .obj [("pinnedAssetIdList".data,
      .arr [.str ("A".data)])])])
    (.obj [("settings".data, .obj [("pinnedAssetIdList".data,
      .arr [.str ("A".data), .str ("G".data)])])])
    (by decide)).1

/-- A store upgrading from `0.9.0` with legacy `Wavesmainnet` data
present: every registered step applies, and the final `1.0.0` step wipes
the whole store before rewriting only `userList`. -/
def legacyStore : Store :=
  [("lastVersion", "0.9.0"), ("userList", "[]"),
   ("Wavesmainnet", String.mk (printJson (.obj [("accounts".data, .arr [])])))]

/-- C4 counterexample: after the migrations start (indeed after they
complete and the readiness deferred resolves), reading `lastVersion` does
not yield the current application version — the `1.0.0` step's
`storage.clear()` erased the freshly written key, so the read yields the
absent-key value instead. -/
theorem C4_counterexample :
    resolveCount (runStorage "1.0.12" legacyStore).trace = 1 ∧
    getItem (runStorage "1.0.12" legacyStore).store "lastVersion" = none ∧
    Storage.load (runStorage "1.0.12" legacyStore).store "lastVersion" = .json .null ∧
    JsVal.json .null ≠ .raw "1.0.12" := by
  refine ⟨by decide, by decide, by decide, by decide⟩

/-- C4 (amended): the current version is persisted under `lastVersion`
before any migration step runs — the store every chain step starts from
already maps it to the current version — and it continues to read as the
current version at every point after migrations start provided the legacy
`Wavesmainnet` record is falsy; otherwise the `1.0.0` step's wipe erases
it (see the counterexample). -/
theorem C4_amended_lastVersion_before_steps (st : Store) (cur s : String) (pv : SemVer)
    (hstored : getItem st "lastVersion" = some s)
    (hnojson : jsonParse s = none)
    (hpv : parseVersion s = some pv)
    (hlegacy : jsFalsy (Storage.load st "Wavesmainnet") = true) :
    (∃ rest, (runStorage cur st).snaps =
      Storage.save st "lastVersion" (.str cur.data) :: rest) ∧
    getItem (Storage.save st "lastVersion" (.str cur.data)) "lastVersion" = some cur ∧
    ∀ st2 ∈ (runStorage cur st).snaps, getItem st2 "lastVersion" = some cur := by
  have hrun := runStorageWith_truthy_eq MIGRATION_MAP cur hstored hnojson hpv
  have hcur : getItem (Storage.save st "lastVersion" (.str cur.data)) "lastVersion" =
      some cur := by
    unfold Storage.save write Storage.stringify
    rw [getItem_setItem_self]
  have hlegacy1 : jsFalsy (Storage.load (Storage.save st "lastVersion" (.str cur.data))
      "Wavesmainnet") = true := by
    have hne : getItem (Storage.save st "lastVersion" (.str cur.data)) "Wavesmainnet" =
        getItem st "Wavesmainnet" := by
      unfold Storage.save write
      exact getItem_setItem_ne st (show "Wavesmainnet" ≠ "lastVersion" by decide) _
    rw [load_preserved hne]
    exact hlegacy
  have hchain := chain_preserves (applicableWith MIGRATION_MAP st)
    (Storage.save st "lastVersion" (.str cur.data)) hlegacy1
  refine ⟨?_, hcur, ?_⟩
  · refine ⟨(runMigrations MIGRATION_MAP (Storage.save st "lastVersion" (.str cur.data))
      (applicableWith MIGRATION_MAP st)).snaps, ?_⟩
    rw [show runStorage cur st = runStorageWith MIGRATION_MAP cur st from rfl, hrun]
  · intro st2 hst2
    rw [show runStorage cur st = runStorageWith MIGRATION_MAP cur st from rfl, hrun] at hst2
    simp only [List.mem_cons] at hst2
    rcases hst2 with rfl | hst3
    · exact hcur
    · rw [hchain.1 st2 hst3, hcur]

/-- C4 (amended) witness: upgrading from `0.9.0` with no legacy record —
all five steps run, and `lastVersion` reads as the current version in the
store each step starts from. -/
theorem C4_witness :
    getItem (Storage.save [("lastVersion", "0.9.0"), ("userList", "[]")]
      "lastVersion" (.str ("1.0.12".data))) "lastVersion" = some "1.0.12" :=
  (C4_amended_lastVersion_before_steps [("lastVersion", "0.9.0"), ("userList", "[]")]
    "1.0.12" "0.9.0" ⟨0, 9, 0, []⟩ (by decide) (by decide) (by decide) (by decide)).2.1

end WavesGUI
